import Mathlib

/-!
# math-prec: precision audit of a floating-point function on AVR

A shallow embedding of `src/math-prec.c`.  Floating-point objects of the C type `FF`
are represented by their storage bits (a natural number below `2 ^ FBITS`), the
unsigned type `uint_t` by natural numbers reduced modulo `2 ^ FBITS`.
-/

namespace MathPrec

/-! ## Numeric format (lines 41-96) -/

/-- The two configurations the preprocessor can select: `FBITS == 32` and `FBITS == 64`. -/
inductive Fmt where
  | f32
  | f64
  deriving DecidableEq, Repr

/-- Width of `FF` and of `uint_t` in bits. -/
def FBITS : Fmt → Nat
  | .f32 => 32
  | .f64 => 64

/-- Number of exponent bits: `#define EXPO_BITS 8` resp. `11`. -/
def EXPO_BITS : Fmt → Nat
  | .f32 => 8
  | .f64 => 11

/-- Exponent bias: `((1 << (EXPO_BITS-1)) - 1)`. -/
def EXPO_BIAS (fmt : Fmt) : Nat := (1 <<< (EXPO_BITS fmt - 1)) - 1

/-- Encoded mantissa bits: `(FBITS - 1 - EXPO_BITS)`. -/
def MANT_BITS (fmt : Fmt) : Nat := FBITS fmt - 1 - EXPO_BITS fmt

/-- Sign mask: `((uint_t) 1 << (FBITS - 1))`. -/
def M_SIGN (fmt : Fmt) : Nat := (1 <<< (FBITS fmt - 1)) % 2 ^ FBITS fmt

/-- Pattern of +infinity: `((((uint_t) 1 << EXPO_BITS) - 1) << MANT_BITS)`. -/
def P_INF (fmt : Fmt) : Nat :=
  ((((1 <<< EXPO_BITS fmt) % 2 ^ FBITS fmt) - 1) <<< MANT_BITS fmt) % 2 ^ FBITS fmt

/-- Bitwise complement `~u` in the type `uint_t`. -/
def unot (fmt : Fmt) (u : Nat) : Nat := 2 ^ FBITS fmt - 1 - u % 2 ^ FBITS fmt

/-- Storage bits of a float: `u_from_f` copies the object representation unchanged. -/
def u_from_f (_fmt : Fmt) (f : Nat) : Nat := f

/-- Zero test `is0`: the bits without the sign bit are all clear. -/
def is0 (fmt : Fmt) (f : Nat) : Bool :=
  let u := u_from_f fmt f &&& unot fmt (M_SIGN fmt)
  u == 0

/-- Finiteness test `isnum`: the bits without the sign bit are below `P_INF`. -/
def isnum (fmt : Fmt) (f : Nat) : Bool :=
  let u := u_from_f fmt f &&& unot fmt (M_SIGN fmt)
  decide (u < P_INF fmt)

/-! ## IEEE-754 reading of a bit pattern -/

/-- Sign field: `to_bits(x) & sign_mask != 0`. -/
def signBit (fmt : Fmt) (f : Nat) : Bool := f &&& M_SIGN fmt != 0

/-- Biased exponent field: `(to_bits(x) >> mantissa_bits) & exponent_mask`. -/
def expoField (fmt : Fmt) (f : Nat) : Nat := (f >>> MANT_BITS fmt) &&& (2 ^ EXPO_BITS fmt - 1)

/-- Mantissa field: `to_bits(x) & mantissa_mask`. -/
def mantField (fmt : Fmt) (f : Nat) : Nat := f &&& (2 ^ MANT_BITS fmt - 1)

/-- Magnitude denoted by a finite pattern (IEEE-754 binary interchange format):
`m / 2^MANT_BITS * 2^(1 - bias)` for a zero exponent field and
`(1 + m / 2^MANT_BITS) * 2^(e - bias)` otherwise. -/
def magRat (fmt : Fmt) (f : Nat) : ℚ :=
  if expoField fmt f = 0 then
    (mantField fmt f : ℚ) / 2 ^ MANT_BITS fmt * (2 : ℚ) ^ ((1 : ℤ) - EXPO_BIAS fmt)
  else
    (1 + (mantField fmt f : ℚ) / 2 ^ MANT_BITS fmt)
      * (2 : ℚ) ^ ((expoField fmt f : ℤ) - EXPO_BIAS fmt)

/-- Signed value denoted by a finite pattern. -/
def toRat (fmt : Fmt) (f : Nat) : ℚ :=
  if signBit fmt f then - magRat fmt f else magRat fmt f


/-! ## Host-side formatted output used by `print_float_bin` -/

/-- The digit characters in the order of their values. -/
def digitTable : List Char := "0123456789abcdef".toList

/-- Character of a digit value below 16 (decimal digits, then lower-case `a`-`f`). -/
def digitChar (d : Nat) : Char := digitTable.getD d '?'

/-- Digits of `n` in base `b`, most significant first, without leading zeros
(empty for 0); at most `fuel` digits are produced. -/
def digitsBE (b : Nat) : Nat → Nat → List Nat
  | 0, _ => []
  | fuel + 1, n => if n = 0 then [] else digitsBE b fuel (n / b) ++ [n % b]

/-- Digits as printed by printf: at least one digit. -/
def printDigits (b : Nat) (n : Nat) : List Nat :=
  if n = 0 then [0] else digitsBE b 64 n

/-- Output of a `%0<width>x` / `%0<width>llx` conversion (`LOG_PFMT_X32`, `LOG_PFMT_X64`):
lower-case hexadecimal, padded on the left with zeros to at least `width` characters. -/
def printf_0x (width : Nat) (n : Nat) : List Char :=
  let ds := (printDigits 16 n).map digitChar
  List.replicate (width - ds.length) '0' ++ ds

/-- Output of a `%u` conversion. -/
def printf_u (n : Nat) : List Char := (printDigits 10 n).map digitChar

/-- Output of a `%d` conversion (`LOG_PFMT_S16`). -/
def printf_d (z : Int) : List Char :=
  if z < 0 then '-' :: printf_u z.natAbs else printf_u z.natAbs

/-- Conversion of an integer value to `int16_t` (two's complement wrap-around). -/
def toInt16 (z : Int) : Int :=
  let m := z % 65536
  if m < 32768 then m else m - 65536

/-- The C expression `~7` of type `int`, as a mask for non-negative operands. -/
def notSeven : Nat := 2 ^ 16 - 1 - 7

/-- Mantissa digits of `print_float_bin` (the `#if FBITS == 32 && MANT_BITS == 23` block):
`mant <<= 1` in `uint_t` and `%06x` for the 32-bit format, `%013llx` for the 64-bit format. -/
def print_mant (fmt : Fmt) (mant : Nat) : List Char :=
  match fmt with
  | .f32 => printf_0x 6 ((mant <<< 1) % 2 ^ 32)
  | .f64 => printf_0x 13 mant

/-- Text written by `print_float_bin (x)` ("Akin %a to print hex float"). -/
def print_float_bin (fmt : Fmt) (x : Nat) : List Char :=
  let m_nul := M_SIGN fmt
  let p_inf := P_INF fmt
  let mant_mask := unot fmt (m_nul ||| p_inf)
  let v := u_from_f fmt x
  let sign : Bool := v &&& m_nul != 0
  let v := v &&& unot fmt m_nul
  let out : List Char := if v > p_inf then [] else [if sign then '-' else ' ']
  let str : Option (List Char) :=
    if v > p_inf then some ['n', 'a', 'n']
    else if v = 0 then some ['0', '.', '0']
    else if v = p_inf then some ['i', 'n', 'f']
    else none
  match str with
  | some s => out ++ s
  | none =>
    let mant := v &&& mant_mask
    let expo : Int := toInt16 ((v >>> (MANT_BITS fmt &&& notSeven) : Nat) : Int)
    let expo : Int := expo >>> (MANT_BITS fmt &&& 7)
    let lead : List Char := if expo ≠ 0 then ['0', 'x', '1', '.'] else ['0', 'x', '0', '.']
    let expo : Int :=
      if expo ≠ 0 then toInt16 (expo - (EXPO_BIAS fmt : Int))
      else toInt16 (1 - (EXPO_BIAS fmt : Int))
    out ++ lead ++ print_mant fmt mant ++ 'p' :: printf_d expo

/-! ## Reading a hex-float literal (the notation `print_float_bin` is meant to produce) -/

/-- Value of a hexadecimal digit character. -/
def hexVal (c : Char) : Option Nat :=
  digitTable.indexOf? c

/-- Value of a decimal digit character. -/
def decVal (c : Char) : Option Nat :=
  (digitTable.take 10).indexOf? c

/-- Number denoted by a string of digit characters in base `b`; `none` if the string is
empty or holds a character that is not a digit. -/
def readDigits (b : Nat) (val : Char → Option Nat) : List Char → Option Nat
  | [] => none
  | c :: cs => (c :: cs).foldlM (fun acc ch => (val ch).map (fun d => acc * b + d)) 0

/-- Signed decimal integer: an optional `-` followed by decimal digits. -/
def readInt : List Char → Option Int
  | '-' :: cs => (readDigits 10 decVal cs).map (fun (n : Nat) => - (n : Int))
  | cs => (readDigits 10 decVal cs).map (fun (n : Nat) => (n : Int))

/-- Literal after the sign character: `0.0`, or `0x<d>.<hex digits>p<decimal exponent>`
with magnitude `(d + 0.<hex digits>) * 2 ^ exponent`. -/
def readMagnitude : List Char → Option ℚ
  | ['0', '.', '0'] => some 0
  | '0' :: 'x' :: d :: '.' :: rest =>
    let frac := rest.takeWhile (fun c => (hexVal c).isSome)
    match rest.dropWhile (fun c => (hexVal c).isSome) with
    | 'p' :: ex =>
      match hexVal d, readDigits 16 hexVal frac, readInt ex with
      | some dv, some fv, some e =>
        some (((dv : ℚ) + (fv : ℚ) / (16 : ℚ) ^ frac.length) * (2 : ℚ) ^ e)
      | _, _, _ => none
    | _ => none
  | _ => none

/-- Hex-float literal as written by `print_float_bin`: a space or `-`, then the magnitude.
The result is the sign flag and the magnitude. -/
def readHexFloat : List Char → Option (Bool × ℚ)
  | ' ' :: rest => (readMagnitude rest).map (fun q => (false, q))
  | '-' :: rest => (readMagnitude rest).map (fun q => (true, q))
  | _ => none

/-- Bit pattern of the finite float with the given sign and magnitude, if the magnitude
is exactly representable in the format. -/
def encodeFinite (fmt : Fmt) (neg : Bool) (q : ℚ) : Option Nat :=
  let s := if neg then M_SIGN fmt else 0
  let scaled : ℚ := q * (2 : ℚ) ^ ((EXPO_BIAS fmt : ℤ) - 1 + MANT_BITS fmt)
  if q < 0 then none
  else if q < (2 : ℚ) ^ ((1 : ℤ) - EXPO_BIAS fmt) then
    -- zero or subnormal: an integer multiple of the smallest subnormal
    if scaled.den = 1 then some (s + scaled.num.toNat) else none
  else
    let e : ℤ := Int.log 2 q
    let m : ℚ := (q / (2 : ℚ) ^ e - 1) * 2 ^ MANT_BITS fmt
    let be : ℤ := e + EXPO_BIAS fmt
    if m.den = 1 ∧ be < 2 ^ EXPO_BITS fmt - 1 then
      some (s + (be.toNat <<< MANT_BITS fmt) + m.num.toNat)
    else none

/-- Signed value of a hex-float literal: `(-1)^s * (d + 0.<hex digits>) * 2 ^ exponent`. -/
def hexFloatValue (s : List Char) : Option ℚ :=
  (readHexFloat s).map (fun r => if r.1 then - r.2 else r.2)

/-- Bit pattern reconstructed from the text of a hex-float literal. -/
def hex_decode (fmt : Fmt) (s : List Char) : Option Nat :=
  (readHexFloat s).bind (fun r => encodeFinite fmt r.1 r.2)

/-- Number of hexadecimal mantissa digits printed: `%06x` resp. `%013llx`. -/
def hexWidth : Fmt → Nat
  | .f32 => 6
  | .f64 => 13

/-- Factor applied to the mantissa before printing: `mant <<= 1` for the 32-bit format. -/
def mantScale : Fmt → Nat
  | .f32 => 2
  | .f64 => 1

/-! ## Floating-point primitives defined outside the file -/

/-- The six host syscalls of `avrtest.h` that the macros `host_add`, `host_sub`,
`host_mul`, `host_div`, `host_log2` and `host_fabs` expand to. -/
structure Host (F : Type) where
  host_add : F → F → F
  host_sub : F → F → F
  host_mul : F → F → F
  host_div : F → F → F
  host_log2 : F → F
  host_fabs : F → F

/-- The host syscalls together with the two language-level operations the error
analysis applies to `FF` objects: the conversion `(FF) n` of an integer and the zero
test `is0`. -/
structure Arith (F : Type) extends Host F where
  ofInt : Int → F
  is0 : F → Bool

/-- Position of the leading one bit of `n` (0 for `n ≤ 1`), searched in `fuel` steps. -/
def ilog2 : Nat → Nat → Nat
  | 0, _ => 0
  | fuel + 1, n => if n ≤ 1 then 0 else 1 + ilog2 fuel (n / 2)

/-- Bit pattern of the conversion `(FF) n` of an integer.  The conversion is exact for
`|n| < 2 ^ (MANT_BITS + 1)`, which covers every conversion the program performs (the
constants 0, 1, `-MANT_BITS` and 16-bit counters). -/
def ff_of_int (fmt : Fmt) (n : Int) : Nat :=
  if n = 0 then 0
  else
    let a := n.natAbs
    let e := ilog2 64 a
    (if n < 0 then M_SIGN fmt else 0) + ((e + EXPO_BIAS fmt) <<< MANT_BITS fmt)
      + ((a - 2 ^ e) <<< (MANT_BITS fmt - e))

/-- Arithmetic on stored bit patterns: the program as it runs, for a given host. -/
def bitsArith (fmt : Fmt) (h : Host Nat) : Arith Nat :=
  { h with ofInt := ff_of_int fmt, is0 := is0 fmt }

/-- Exact arithmetic on real numbers: every host operation returns the mathematical
result, and the zero test holds for the number 0 only. -/
noncomputable def exactArith : Arith ℝ where
  host_add := fun x y => x + y
  host_sub := fun x y => x - y
  host_mul := fun x y => x * y
  host_div := fun x y => x / y
  host_log2 := fun x => Real.logb 2 x
  host_fabs := fun x => |x|
  ofInt := fun n => (n : ℝ)
  is0 := fun x => decide (x = 0)

/-! ## Error analysis (lines 289-314 and 368-376) -/

/-- Accuracy in bits `bitacc (err)`: `-MANT_BITS` for a zero error, else
`1 + log2 |err|`. -/
def bitacc {F : Type} (fmt : Fmt) (A : Arith F) (err : F) : F :=
  if A.is0 err then A.ofInt (-(MANT_BITS fmt : Int))
  else
    let acc := A.host_add (A.ofInt 1) (A.host_log2 (A.host_fabs err))
    acc

/-- Sample point `val_linear (a, b, n_vals, n)`.  The `uint16_t` operand of
`n_vals - 1` is promoted to the 16-bit `unsigned int` of the target. -/
def val_linear {F : Type} (A : Arith F) (a b : F) (n_vals n : Nat) : F :=
  let len := A.host_sub b a
  let dx := A.host_div len (A.ofInt (((n_vals + 65535) % 65536 : Nat) : Int))
  A.host_add a (A.host_mul (A.ofInt (n : Int)) dx)

/-- The three error figures of a sample. -/
structure Errors (F : Type) where
  abs_err : F
  rel_err : F
  bit_err : F

/-- Error figures of `main` for the target result `w1` and the host result `w0`
(lines 368-376). -/
def sample_errors {F : Type} (fmt : Fmt) (A : Arith F) (w1 w0 : F) : Errors F :=
  let abs_err := A.host_sub w1 w0
  let rel_err :=
    if A.is0 w0 then (if A.is0 w1 then A.ofInt 0 else A.ofInt 1)
    else A.host_div abs_err (A.host_fabs w0)
  let bit_err := bitacc fmt A rel_err
  { abs_err := abs_err, rel_err := rel_err, bit_err := bit_err }

/-! ## Comparison of `FF` objects -/

/-- NaN patterns: sign-stripped pattern above `P_INF`. -/
def isnan (fmt : Fmt) (f : Nat) : Bool :=
  decide (P_INF fmt < u_from_f fmt f &&& unot fmt (M_SIGN fmt))

/-- Order-preserving integer key of a non-NaN pattern: the sign-stripped pattern,
negated when the sign bit is set (so that -0 and +0 share the key 0). -/
def ordKey (fmt : Fmt) (f : Nat) : Int :=
  if signBit fmt f then - ((f &&& unot fmt (M_SIGN fmt) : Nat) : Int)
  else ((f &&& unot fmt (M_SIGN fmt) : Nat) : Int)

/-- The C comparison `a < b` on `FF` objects (IEEE-754): false when an operand is a
NaN, otherwise the order of the values. -/
def ff_lt (fmt : Fmt) (a b : Nat) : Bool :=
  !isnan fmt a && !isnan fmt b && decide (ordKey fmt a < ordKey fmt b)

/-- Unary minus on an `FF` object: the sign bit is flipped. -/
def ff_neg (fmt : Fmt) (f : Nat) : Nat := f ^^^ M_SIGN fmt

/-! ## Running extrema and the sweep of `main` (lines 317-400, `N_ARGS == 1`) -/

/-- The global variables `abs_mi`, `abs_ma`, `rel_mi`, `rel_ma`, `cyc_ma` and `ticks`. -/
structure Globals where
  abs_mi : Nat
  abs_ma : Nat
  rel_mi : Nat
  rel_ma : Nat
  cyc_ma : Nat
  ticks : Nat
  deriving DecidableEq, Repr

/-- Initialisation at the start of `main` (lines 332-336); `__builtin_huge_valf ()` is
+infinity. -/
def init_globals (fmt : Fmt) (ticks : Nat) : Globals :=
  let abs_mi := P_INF fmt
  let abs_ma := ff_neg fmt abs_mi
  { abs_mi := abs_mi, abs_ma := abs_ma, rel_mi := abs_mi, rel_ma := abs_ma,
    cyc_ma := 0, ticks := ticks }

/-- Extremum update of one emitted sample (lines 386-392): the new globals and the
markers written. -/
def update_extrema (fmt : Fmt) (g : Globals) (abs_err rel_err : Nat) :
    Globals × List Char :=
  let r : Globals × List Char := (g, [])
  let r := if ff_lt fmt abs_err r.1.abs_mi
    then ({ r.1 with abs_mi := abs_err }, r.2 ++ [' ', '!', 'a', '<']) else r
  let r := if ff_lt fmt r.1.abs_ma abs_err
    then ({ r.1 with abs_ma := abs_err }, r.2 ++ [' ', '!', 'a', '>']) else r
  let r := if ff_lt fmt rel_err r.1.rel_mi
    then ({ r.1 with rel_mi := rel_err }, r.2 ++ [' ', '!', 'r', '<']) else r
  let r := if ff_lt fmt r.1.rel_ma rel_err
    then ({ r.1 with rel_ma := rel_err }, r.2 ++ [' ', '!', 'r', '>']) else r
  let r := if r.1.ticks > r.1.cyc_ma
    then ({ r.1 with cyc_ma := r.1.ticks }, r.2 ++ [' ', '!', 't', '>']) else r
  r

/-- What `main` takes from outside the file for a one-argument function: the host
syscalls, the function under test on the target with the cycle counter read after each
call, the host value `avrtest_<FUN>`, the float formatter behind `LOG_PFMT_FF`, and the
configuration macros `XVALS`, `X0`, `X1`. -/
structure Harness where
  host : Host Nat
  FUN : Nat → Nat
  cycles : Nat → Nat
  host_val : Nat → Nat
  pfmt_ff : List Char → Nat → List Char
  XVALS : Nat
  X0 : Nat
  X1 : Nat

/-- Function `eval_FUN (x)`: the target result and the value left in `ticks` (a
`uint32_t`, less 5 cycles for `FBITS == 32` and 30 cycles for `FBITS == 64`). -/
def eval_FUN (fmt : Fmt) (T : Harness) (x : Nat) : Nat × Nat :=
  let w := T.FUN x
  let ticks := T.cycles x % 2 ^ 32
  let ticks := if FBITS fmt = 32 then (ticks + (2 ^ 32 - 5)) % 2 ^ 32 else ticks
  let ticks := if FBITS fmt = 64 then (ticks + (2 ^ 32 - 30)) % 2 ^ 32 else ticks
  (w, ticks)

/-- One iteration of the `ix` loop of `main`: the new globals and the text written. -/
def sample_step (fmt : Fmt) (T : Harness) (g : Globals) (ix : Nat) : Globals × List Char :=
  let A := bitsArith fmt T.host
  let pfmt_x : List Char :=
    if FBITS fmt = 32 then [' ', '%', ' ', '.', '8', 'f'] else [' ', '%', ' ', '.', '1', '5', 'f']
  let x := val_linear A T.X0 T.X1 (T.XVALS % 65536) ix
  let ev := eval_FUN fmt T x
  let w1 := ev.1
  let g := { g with ticks := ev.2 }
  if !isnum fmt w1 then (g, [])
  else
    let out := [':', ':', ' ']
    let out := out ++ T.pfmt_ff pfmt_x x
    let w0 := T.host_val x
    let er := sample_errors fmt A w1 w0
    let out := out ++ T.pfmt_ff [' ', '%', ' ', '.', '4', 'e', ' '] er.abs_err
    let out := out ++ T.pfmt_ff [' ', '%', ' ', '.', '4', 'e', ' '] er.rel_err
    let out := out ++ T.pfmt_ff [' ', '%', ' ', '.', '2', 'f', ' ', '#', ' '] er.bit_err
    let out := out ++ print_float_bin fmt x
    let out := out ++ (' ' :: printf_u g.ticks)
    let u := update_extrema fmt g er.abs_err er.rel_err
    (u.1, out ++ u.2 ++ ['\n'])

/-- The `ix` loop of `main` run for the indices `ix, ix + 1, ...` (`count` of them). -/
def sweep_from (fmt : Fmt) (T : Harness) : Nat → Nat → Globals → Globals × List Char
  | 0, _, g => (g, [])
  | count + 1, ix, g =>
    let r := sample_step fmt T g ix
    let rest := sweep_from fmt T count (ix + 1) r.1
    (rest.1, r.2 ++ rest.2)

/-- Function `main`: initialisation of the extrema, then the loop
`for (ix = 0; ix < x_vals; ++ix)`; the global `ticks` starts at 0. -/
def main (fmt : Fmt) (T : Harness) : Globals × List Char :=
  sweep_from fmt T (T.XVALS % 65536) 0 (init_globals fmt 0)

/-- Text of the markers for the five comparison outcomes, in the order written. -/
def marker_text (c1 c2 c3 c4 c5 : Bool) : List Char :=
  (if c1 then [' ', '!', 'a', '<'] else []) ++ (if c2 then [' ', '!', 'a', '>'] else [])
    ++ (if c3 then [' ', '!', 'r', '<'] else []) ++ (if c4 then [' ', '!', 'r', '>'] else [])
    ++ (if c5 then [' ', '!', 't', '>'] else [])

/-- Magnitude of a finite pattern counted in units of the smallest subnormal
`2 ^ (1 - EXPO_BIAS - MANT_BITS)`. -/
def magUnits (fmt : Fmt) (f : Nat) : Nat :=
  if expoField fmt f = 0 then mantField fmt f
  else (2 ^ MANT_BITS fmt + mantField fmt f) * 2 ^ (expoField fmt f - 1)

/-- An emitted sample as the extremum update sees it: its two errors and the cycle
count left in `ticks`. -/
structure Sample where
  abs_err : Nat
  rel_err : Nat
  ticks : Nat
  deriving DecidableEq, Repr

/-- Globals after the extremum updates of a sequence of emitted samples. -/
def track (fmt : Fmt) (g : Globals) : List Sample → Globals
  | [] => g
  | s :: rest =>
    track fmt (update_extrema fmt { g with ticks := s.ticks } s.abs_err s.rel_err).1 rest

/-- Markers written for the emitted sample `s` when the samples `ss` were emitted before
it since the start of `main`. -/
def markers_after (fmt : Fmt) (ss : List Sample) (s : Sample) : List Char :=
  (update_extrema fmt { track fmt (init_globals fmt 0) ss with ticks := s.ticks }
    s.abs_err s.rel_err).2

/-- The emitted samples of the iterations `ix, ix + 1, ...` (`count` of them): those with
a finite target result, in order. -/
def emitted (fmt : Fmt) (T : Harness) : Nat → Nat → List Sample
  | 0, _ => []
  | count + 1, ix =>
    let x := val_linear (bitsArith fmt T.host) T.X0 T.X1 (T.XVALS % 65536) ix
    let ev := eval_FUN fmt T x
    if isnum fmt ev.1 then
      let er := sample_errors fmt (bitsArith fmt T.host) ev.1 (T.host_val x)
      { abs_err := er.abs_err, rel_err := er.rel_err, ticks := ev.2 } :: emitted fmt T count (ix + 1)
    else emitted fmt T count (ix + 1)

/-- The five running extrema of the globals. -/
def extrema (g : Globals) : Nat × Nat × Nat × Nat × Nat :=
  (g.abs_mi, g.abs_ma, g.rel_mi, g.rel_ma, g.cyc_ma)

/-! ## A reference host: IEEE-754 arithmetic on bit patterns

The host syscalls are outside the program.  To instantiate statements about an arbitrary
host, this section provides one concrete host working in round-to-nearest-even. -/

/-- Number of binary digits of `n`. -/
def bitLength (n : Nat) : Nat := if n = 0 then 0 else ilog2 4096 n + 1

/-- Sign-stripped pattern of the float nearest to `n / 2 ^ t` units of the smallest
subnormal (ties to even), `P_INF` on overflow.  A sticky bit may be kept in bit 0 of `n`
when `t ≥ 1`. -/
def roundUnits (fmt : Fmt) (n t : Nat) : Nat :=
  let s := max t (bitLength n - (MANT_BITS fmt + 1))
  let q := n >>> s
  let r := n % 2 ^ s
  let up : Bool := decide (2 ^ s < 2 * r) || (decide (2 * r = 2 ^ s) && decide (q % 2 = 1))
  let v := (s - t) * 2 ^ MANT_BITS fmt + (if up then q + 1 else q)
  min v (P_INF fmt)

/-- Pattern with the given sign bit and sign-stripped part. -/
def withSign (fmt : Fmt) (neg : Bool) (v : Nat) : Nat := if neg then M_SIGN fmt + v else v

/-- The quiet NaN returned for invalid operations. -/
def qNaN (fmt : Fmt) : Nat := P_INF fmt + 2 ^ (MANT_BITS fmt - 1)

/-- Infinity patterns of either sign. -/
def isinf (fmt : Fmt) (f : Nat) : Bool :=
  decide (u_from_f fmt f &&& unot fmt (M_SIGN fmt) = P_INF fmt)

/-- Signed magnitude of a finite pattern in units of the smallest subnormal. -/
def sgnUnits (fmt : Fmt) (f : Nat) : Int :=
  if signBit fmt f then - (magUnits fmt f : Int) else (magUnits fmt f : Int)

/-- Sum of `a` and the value with the magnitude of `b` and the sign flag `nb`
(`ieee_add` passes the sign of `b`, `ieee_sub` the flipped sign). -/
def ieee_addsub (fmt : Fmt) (a b : Nat) (nb : Bool) : Nat :=
  if isnan fmt a || isnan fmt b then qNaN fmt
  else if isinf fmt a then
    (if isinf fmt b && (signBit fmt a != nb) then qNaN fmt else a)
  else if isinf fmt b then withSign fmt nb (P_INF fmt)
  else
    let z : Int := sgnUnits fmt a + (if nb then - (magUnits fmt b : Int) else (magUnits fmt b : Int))
    if z = 0 then (if signBit fmt a && nb then M_SIGN fmt else 0)
    else withSign fmt (decide (z < 0)) (roundUnits fmt z.natAbs 0)

/-- IEEE-754 addition. -/
def ieee_add (fmt : Fmt) (a b : Nat) : Nat := ieee_addsub fmt a b (signBit fmt b)

/-- IEEE-754 subtraction. -/
def ieee_sub (fmt : Fmt) (a b : Nat) : Nat := ieee_addsub fmt a b (!signBit fmt b)

/-- IEEE-754 multiplication. -/
def ieee_mul (fmt : Fmt) (a b : Nat) : Nat :=
  let neg := signBit fmt a != signBit fmt b
  if isnan fmt a || isnan fmt b then qNaN fmt
  else if isinf fmt a || isinf fmt b then
    (if is0 fmt a || is0 fmt b then qNaN fmt else withSign fmt neg (P_INF fmt))
  else
    withSign fmt neg
      (roundUnits fmt (magUnits fmt a * magUnits fmt b) (EXPO_BIAS fmt + MANT_BITS fmt - 1))

/-- IEEE-754 division. -/
def ieee_div (fmt : Fmt) (a b : Nat) : Nat :=
  let neg := signBit fmt a != signBit fmt b
  if isnan fmt a || isnan fmt b then qNaN fmt
  else if isinf fmt a then (if isinf fmt b then qNaN fmt else withSign fmt neg (P_INF fmt))
  else if isinf fmt b then withSign fmt neg 0
  else if is0 fmt b then (if is0 fmt a then qNaN fmt else withSign fmt neg (P_INF fmt))
  else if is0 fmt a then withSign fmt neg 0
  else
    let t := MANT_BITS fmt + 3 + bitLength (magUnits fmt b)
    let num := magUnits fmt a * 2 ^ (EXPO_BIAS fmt + MANT_BITS fmt - 1 + t)
    let q := num / magUnits fmt b
    let sticky := if num % magUnits fmt b = 0 then 0 else 1
    withSign fmt neg (roundUnits fmt (2 * q + sticky) (t + 1))

/-- Sign-clearing absolute value. -/
def ieee_fabs (fmt : Fmt) (a : Nat) : Nat := u_from_f fmt a &&& unot fmt (M_SIGN fmt)

/-- Fraction bits of `log2 f` for the fixed-point number `fi / 2 ^ g` in `[1, 2)`, by
repeated squaring; `acc` collects the bits, `k` bits are still to be produced. -/
def log2_frac (g : Nat) : Nat → Nat → Nat → Nat
  | 0, _, acc => acc
  | k + 1, fi, acc =>
    let sq := (fi * fi) >>> g
    if 2 ^ (g + 1) ≤ sq then log2_frac g k (sq >>> 1) (2 * acc + 1)
    else log2_frac g k sq (2 * acc)

/-- Binary logarithm, computed to `MANT_BITS + 6` fraction bits and then rounded. -/
def ieee_log2 (fmt : Fmt) (a : Nat) : Nat :=
  if isnan fmt a then qNaN fmt
  else if is0 fmt a then withSign fmt true (P_INF fmt)
  else if signBit fmt a then qNaN fmt
  else if isinf fmt a then a
  else
    let c := EXPO_BIAS fmt + MANT_BITS fmt - 1
    let k := magUnits fmt a
    let len := bitLength k
    let g := 2 * MANT_BITS fmt + 8
    let p := MANT_BITS fmt + 6
    let fi := (k * 2 ^ g) >>> (len - 1)
    let z : Int := ((len : Int) - 1 - (c : Int)) * 2 ^ p + (log2_frac g p fi 0 : Int)
    if z = 0 then 0
    else withSign fmt (decide (z < 0)) (roundUnits fmt (z.natAbs * 2 ^ c) p)

/-- The reference host. -/
def ieeeHost (fmt : Fmt) : Host Nat where
  host_add := ieee_add fmt
  host_sub := ieee_sub fmt
  host_mul := ieee_mul fmt
  host_div := ieee_div fmt
  host_log2 := ieee_log2 fmt
  host_fabs := ieee_fabs fmt

/-- A harness for examples: the reference host, a given target function and host value
function, a constant cycle count, and a float formatter that writes the stored bits in
hexadecimal. -/
def demoHarness (fmt : Fmt) (target hostval : Nat → Nat) (xvals x0 x1 : Nat) : Harness where
  host := ieeeHost fmt
  FUN := target
  cycles := fun _ => 100
  host_val := hostval
  pfmt_ff := fun _ f => ' ' :: printf_0x 8 f
  XVALS := xvals
  X0 := x0
  X1 := x1

/-- The `w` low digits of `n` in base `b`, most significant first. -/
def fixedDigits (b : Nat) : Nat → Nat → List Nat
  | 0, _ => []
  | w + 1, n => fixedDigits b w (n / b) ++ [n % b]

/-! ## Target-side arithmetic (lines 168-176) and the records of a sweep -/

/-- The operators `+`, `-`, `*`, `/` on `FF` objects as the compiler implements them on
the target. -/
structure TargetOps (F : Type) where
  add : F → F → F
  sub : F → F → F
  mul : F → F → F
  div : F → F → F

/-- Target-side `addf (x, y)`: `x + y`. -/
def addf {F : Type} (t : TargetOps F) (x y : F) : F := t.add x y

/-- Target-side `subf (x, y)`: `x - y`. -/
def subf {F : Type} (t : TargetOps F) (x y : F) : F := t.sub x y

/-- Target-side `mulf (x, y)`: `x * y`. -/
def mulf {F : Type} (t : TargetOps F) (x y : F) : F := t.mul x y

/-- Target-side `divf (x, y)`: `x / y`. -/
def divf {F : Type} (t : TargetOps F) (x y : F) : F := t.div x y

/-- A target arithmetic for examples: the results of the reference host, except that a
subnormal result is flushed to a zero of the same sign. -/
def ftzTarget (fmt : Fmt) : TargetOps Nat where
  add := fun x y => let r := ieee_add fmt x y
    if expoField fmt r = 0 then withSign fmt (signBit fmt r) 0 else r
  sub := fun x y => let r := ieee_sub fmt x y
    if expoField fmt r = 0 then withSign fmt (signBit fmt r) 0 else r
  mul := fun x y => let r := ieee_mul fmt x y
    if expoField fmt r = 0 then withSign fmt (signBit fmt r) 0 else r
  div := fun x y => let r := ieee_div fmt x y
    if expoField fmt r = 0 then withSign fmt (signBit fmt r) 0 else r

/-- Sample point of iteration `ix`. -/
def point_at (fmt : Fmt) (T : Harness) (ix : Nat) : Nat :=
  val_linear (bitsArith fmt T.host) T.X0 T.X1 (T.XVALS % 65536) ix

/-- Whether the target result of iteration `ix` is finite. -/
def finite_at (fmt : Fmt) (T : Harness) (ix : Nat) : Bool :=
  isnum fmt (eval_FUN fmt T (point_at fmt T ix)).1

/-- The sample of iteration `ix` as the extremum update sees it. -/
def sample_at (fmt : Fmt) (T : Harness) (ix : Nat) : Sample :=
  let ev := eval_FUN fmt T (point_at fmt T ix)
  let er := sample_errors fmt (bitsArith fmt T.host) ev.1 (T.host_val (point_at fmt T ix))
  { abs_err := er.abs_err, rel_err := er.rel_err, ticks := ev.2 }

/-- Text of the record of iteration `ix` up to the cycle count, that is, without the
markers and the newline. -/
def record_body (fmt : Fmt) (T : Harness) (ix : Nat) : List Char :=
  let x := point_at fmt T ix
  let s := sample_at fmt T ix
  let bit_err := bitacc fmt (bitsArith fmt T.host) s.rel_err
  [':', ':', ' ']
    ++ T.pfmt_ff (if FBITS fmt = 32 then [' ', '%', ' ', '.', '8', 'f']
        else [' ', '%', ' ', '.', '1', '5', 'f']) x
    ++ T.pfmt_ff [' ', '%', ' ', '.', '4', 'e', ' '] s.abs_err
    ++ T.pfmt_ff [' ', '%', ' ', '.', '4', 'e', ' '] s.rel_err
    ++ T.pfmt_ff [' ', '%', ' ', '.', '2', 'f', ' ', '#', ' '] bit_err
    ++ print_float_bin fmt x
    ++ (' ' :: printf_u s.ticks)

/-- The records of the iterations `ix, ix + 1, ...` (`count` of them) as pairs of sample
index and text, when the samples `prev` were emitted before. -/
def records_from (fmt : Fmt) (T : Harness) : Nat → Nat → List Sample → List (Nat × List Char)
  | 0, _, _ => []
  | count + 1, ix, prev =>
    if finite_at fmt T ix then
      (ix, record_body fmt T ix ++ markers_after fmt prev (sample_at fmt T ix) ++ ['\n'])
        :: records_from fmt T count (ix + 1) (prev ++ [sample_at fmt T ix])
    else records_from fmt T count (ix + 1) prev

/-! ## Digit strings -/


theorem hexVal_digitChar : ∀ d, d < 16 → hexVal (digitChar d) = some d := by decide

theorem decVal_digitChar : ∀ d, d < 10 → decVal (digitChar d) = some d := by decide

theorem digitsBE_lt (b : Nat) (hb : 0 < b) (fuel n : Nat) : ∀ d ∈ digitsBE b fuel n, d < b := by
  induction fuel generalizing n with
  | zero => intro d hd; simp [digitsBE] at hd
  | succ k ih =>
    intro d hd
    rw [digitsBE] at hd
    split at hd
    · simp at hd
    · rcases List.mem_append.mp hd with h | h
      · exact ih _ d h
      · simp at h; rw [h]; exact Nat.mod_lt _ hb

theorem digitsBE_foldl (b : Nat) (hb : 1 < b) (fuel n : Nat) (hn : n < b ^ fuel) :
    (digitsBE b fuel n).foldl (fun a d => a * b + d) 0 = n := by
  induction fuel generalizing n with
  | zero => simp at hn; simp [digitsBE, hn]
  | succ k ih =>
    rw [digitsBE]
    split
    · simp_all
    · rw [List.foldl_append, ih (n / b)]
      · simp only [List.foldl_cons, List.foldl_nil]
        exact Nat.div_add_mod' n b
      · rw [Nat.div_lt_iff_lt_mul (by omega)]
        rw [pow_succ] at hn; exact hn

theorem digitsBE_length (b : Nat) (hb : 1 < b) (fuel n k : Nat) (hn : n < b ^ k) :
    (digitsBE b fuel n).length ≤ k := by
  induction fuel generalizing n k with
  | zero => simp [digitsBE]
  | succ f ih =>
    rw [digitsBE]
    split
    · simp
    · rename_i h0
      cases k with
      | zero => simp at hn; omega
      | succ k =>
        have := ih (n / b) k (by rw [Nat.div_lt_iff_lt_mul (by omega)]; rw [pow_succ] at hn; exact hn)
        simp; omega

theorem digitsBE_ne_nil (b fuel n : Nat) (h : n ≠ 0) : digitsBE b (fuel + 1) n ≠ [] := by
  rw [digitsBE]; simp [h]

theorem readDigits_of_ne_nil (b : Nat) (val : Char → Option Nat) (l : List Char) (h : l ≠ []) :
    readDigits b val l = l.foldlM (fun acc ch => (val ch).map (fun d => acc * b + d)) 0 := by
  cases l with
  | nil => exact absurd rfl h
  | cons c cs => rfl

theorem foldlM_digitChar (b L : Nat) (val : Char → Option Nat)
    (hval : ∀ d, d < L → val (digitChar d) = some d) (ds : List Nat) (hds : ∀ d ∈ ds, d < L)
    (acc : Nat) :
    (ds.map digitChar).foldlM (fun acc ch => (val ch).map (fun d => acc * b + d)) acc
      = some (ds.foldl (fun a d => a * b + d) acc) := by
  induction ds generalizing acc with
  | nil => rfl
  | cons d ds ih =>
    have hd := hval d (hds d (List.mem_cons_self _ _))
    simp only [List.map_cons, List.foldlM_cons, hd, Option.map_some', List.foldl_cons]
    simp only [Option.bind_eq_bind, Option.some_bind]
    exact ih (fun x hx => hds x (List.mem_cons_of_mem _ hx)) _

theorem printDigits_lt (b : Nat) (hb : 0 < b) (n : Nat) : ∀ d ∈ printDigits b n, d < b := by
  intro d hd
  unfold printDigits at hd
  split at hd
  · simp at hd; omega
  · exact digitsBE_lt b hb _ _ d hd

theorem printDigits_ne_nil (b n : Nat) : printDigits b n ≠ [] := by
  unfold printDigits
  split
  · simp
  · rename_i h; rw [digitsBE]; simp [h]

theorem printDigits_foldl (b : Nat) (hb : 1 < b) (n : Nat) (hn : n < b ^ 64) :
    (printDigits b n).foldl (fun a d => a * b + d) 0 = n := by
  unfold printDigits
  split
  · simp_all
  · exact digitsBE_foldl b hb 64 n hn

theorem printDigits_length (b : Nat) (hb : 1 < b) (n k : Nat) (hk : 0 < k) (hn : n < b ^ k) :
    (printDigits b n).length ≤ k := by
  unfold printDigits
  split
  · simp; omega
  · exact digitsBE_length b hb 64 n k hn

theorem foldl_replicate_zero (b k : Nat) (l : List Nat) :
    (List.replicate k 0 ++ l).foldl (fun a d => a * b + d) 0
      = l.foldl (fun a d => a * b + d) 0 := by
  induction k with
  | zero => rfl
  | succ k ih => simpa [List.replicate_succ] using ih

theorem printf_0x_eq_map (w n : Nat) :
    printf_0x w n
      = (List.replicate (w - (printDigits 16 n).length) 0 ++ printDigits 16 n).map digitChar := by
  have h0 : digitChar 0 = '0' := by decide
  simp [printf_0x, h0]

theorem printf_0x_length (w n : Nat) (hw : 0 < w) (hn : n < 16 ^ w) :
    (printf_0x w n).length = w := by
  have := printDigits_length 16 (by omega) n w hw hn
  rw [printf_0x_eq_map]; simp; omega

theorem readDigits_printf_0x (w n : Nat) (hn : n < 16 ^ 64) :
    readDigits 16 hexVal (printf_0x w n) = some n := by
  rw [readDigits_of_ne_nil, printf_0x_eq_map,
    foldlM_digitChar 16 16 hexVal hexVal_digitChar, foldl_replicate_zero,
    printDigits_foldl 16 (by omega) n hn]
  · intro d hd
    rcases List.mem_append.mp hd with h | h
    · rw [List.mem_replicate] at h; omega
    · exact printDigits_lt 16 (by omega) n d h
  · rw [printf_0x_eq_map]
    simp [printDigits_ne_nil]

theorem printf_0x_all_hex (w n : Nat) : ∀ c ∈ printf_0x w n, (hexVal c).isSome = true := by
  intro c hc
  rw [printf_0x_eq_map, List.mem_map] at hc
  obtain ⟨d, hd, rfl⟩ := hc
  have : d < 16 := by
    rcases List.mem_append.mp hd with h | h
    · rw [List.mem_replicate] at h; omega
    · exact printDigits_lt 16 (by omega) n d h
  rw [hexVal_digitChar d this]; rfl

theorem readDigits_printf_u (n : Nat) (hn : n < 10 ^ 64) :
    readDigits 10 decVal (printf_u n) = some n := by
  rw [readDigits_of_ne_nil, printf_u, foldlM_digitChar 10 10 decVal decVal_digitChar,
    printDigits_foldl 10 (by omega) n hn]
  · exact printDigits_lt 10 (by omega) n
  · simp [printf_u, printDigits_ne_nil]

theorem printf_u_head_ne_minus (n : Nat) : ∀ c ∈ printf_u n, c ≠ '-' := by
  intro c hc
  rw [printf_u, List.mem_map] at hc
  obtain ⟨d, hd, rfl⟩ := hc
  have : d < 10 := printDigits_lt 10 (by omega) n d hd
  interval_cases d <;> decide

theorem readInt_printf_d (z : Int) (hz : z.natAbs < 10 ^ 64) :
    readInt (printf_d z) = some z := by
  unfold printf_d
  split
  · rename_i h
    simp only [readInt, readDigits_printf_u _ hz, Option.map_some']
    rw [Int.ofNat_natAbs_of_nonpos (le_of_lt h), neg_neg]
  · rename_i h
    have hne := printf_u_head_ne_minus z.natAbs
    have hr := readDigits_printf_u _ hz
    generalize printf_u z.natAbs = l at hne hr
    cases l with
    | nil => simp [readDigits] at hr
    | cons c cs =>
      have hc : c ≠ '-' := hne c (List.mem_cons_self _ _)
      rw [readInt]
      · rw [hr]; simp; omega
      · intro cs' h'; simp at h'; exact hc h'.1

/-! ## Bit fields -/

theorem unot_M_SIGN (fmt : Fmt) : unot fmt (M_SIGN fmt) = 2 ^ (FBITS fmt - 1) - 1 := by
  cases fmt <;> decide

theorem strip_sign_eq_mod (fmt : Fmt) (f : Nat) :
    u_from_f fmt f &&& unot fmt (M_SIGN fmt) = f % 2 ^ (FBITS fmt - 1) := by
  rw [unot_M_SIGN, u_from_f, Nat.and_pow_two_sub_one_eq_mod]

theorem mant_mask_eq (fmt : Fmt) : unot fmt (M_SIGN fmt ||| P_INF fmt) = 2 ^ MANT_BITS fmt - 1 := by
  cases fmt <;> decide

theorem expoField_eq (fmt : Fmt) (f : Nat) :
    expoField fmt f = f / 2 ^ MANT_BITS fmt % 2 ^ EXPO_BITS fmt := by
  rw [expoField, Nat.and_pow_two_sub_one_eq_mod, Nat.shiftRight_eq_div_pow]

theorem mantField_eq (fmt : Fmt) (f : Nat) : mantField fmt f = f % 2 ^ MANT_BITS fmt := by
  rw [mantField, Nat.and_pow_two_sub_one_eq_mod]

/-- The two-step exponent extraction of `print_float_bin` on a sign-stripped pattern. -/
theorem expo_extract (fmt : Fmt) (v : Nat) (hv : v < 2 ^ (FBITS fmt - 1)) :
    toInt16 ((v >>> (MANT_BITS fmt &&& notSeven) : Nat) : Int) >>> (MANT_BITS fmt &&& 7)
      = ((v / 2 ^ MANT_BITS fmt : Nat) : Int) := by
  cases fmt
  · have h1 : MANT_BITS .f32 &&& notSeven = 16 := by decide
    have h2 : MANT_BITS .f32 &&& 7 = 7 := by decide
    have h3 : MANT_BITS .f32 = 23 := by decide
    rw [h1, h2, h3, Nat.shiftRight_eq_div_pow, Int.shiftRight_eq_div_pow, toInt16]
    simp only [FBITS] at hv
    norm_num at hv ⊢
    split <;> omega
  · have h1 : MANT_BITS .f64 &&& notSeven = 48 := by decide
    have h2 : MANT_BITS .f64 &&& 7 = 4 := by decide
    have h3 : MANT_BITS .f64 = 52 := by decide
    rw [h1, h2, h3, Nat.shiftRight_eq_div_pow, Int.shiftRight_eq_div_pow, toInt16]
    simp only [FBITS] at hv
    norm_num at hv ⊢
    split <;> omega

theorem toInt16_of_small (z : Int) (h1 : -32768 ≤ z) (h2 : z < 32768) : toInt16 z = z := by
  unfold toInt16; simp only; split <;> omega

theorem print_mant_eq (fmt : Fmt) (m : Nat) (hm : m < 2 ^ MANT_BITS fmt) :
    print_mant fmt m = printf_0x (hexWidth fmt) (m * mantScale fmt) := by
  cases fmt
  · simp only [MANT_BITS, FBITS, EXPO_BITS] at hm
    simp only [print_mant, hexWidth, mantScale, Nat.shiftLeft_eq]
    congr 1; omega
  · simp [print_mant, hexWidth, mantScale]

theorem print_float_bin_finite (fmt : Fmt) (x : Nat)
    (h0 : x % 2 ^ (FBITS fmt - 1) ≠ 0) (hfin : x % 2 ^ (FBITS fmt - 1) < P_INF fmt) :
    print_float_bin fmt x = 
      (if signBit fmt x then '-' else ' ') ::
        (['0', 'x', (if expoField fmt x ≠ 0 then '1' else '0'), '.']
          ++ printf_0x (hexWidth fmt) (mantField fmt x * mantScale fmt)
          ++ 'p' :: printf_d (if expoField fmt x ≠ 0
              then (expoField fmt x : Int) - EXPO_BIAS fmt else 1 - (EXPO_BIAS fmt : Int))) := by
  have hv : x % 2 ^ (FBITS fmt - 1) < 2 ^ (FBITS fmt - 1) := Nat.mod_lt _ (by positivity)
  have he : expoField fmt x = x % 2 ^ (FBITS fmt - 1) / 2 ^ MANT_BITS fmt := by
    rw [expoField_eq]; cases fmt <;> simp [FBITS, MANT_BITS, EXPO_BITS] <;> omega
  have hm : mantField fmt x = x % 2 ^ (FBITS fmt - 1) % 2 ^ MANT_BITS fmt := by
    rw [mantField_eq]; cases fmt <;> simp [FBITS, MANT_BITS, EXPO_BITS] <;> omega
  have hlt : expoField fmt x < 2 ^ EXPO_BITS fmt - 1 := by
    rw [he]; revert hfin; generalize x % 2 ^ (FBITS fmt - 1) = v
    cases fmt <;> simp [P_INF, FBITS, MANT_BITS, EXPO_BITS] <;> omega
  unfold print_float_bin
  simp only [strip_sign_eq_mod, mant_mask_eq, expo_extract fmt _ hv, Nat.and_pow_two_sub_one_eq_mod]
  rw [← he, ← hm]
  simp only [gt_iff_lt, not_lt_of_gt hfin, if_false, h0, ne_of_lt hfin]
  have hmlt : mantField fmt x < 2 ^ MANT_BITS fmt := by
    rw [mantField_eq]; exact Nat.mod_lt _ (by positivity)
  have ht1 : toInt16 ((expoField fmt x : Int) - EXPO_BIAS fmt)
      = (expoField fmt x : Int) - EXPO_BIAS fmt := by
    apply toInt16_of_small <;> revert hlt <;>
      cases fmt <;> simp [EXPO_BITS, EXPO_BIAS] <;> omega
  have ht2 : toInt16 (1 - (EXPO_BIAS fmt : Int)) = 1 - (EXPO_BIAS fmt : Int) := by
    apply toInt16_of_small <;> cases fmt <;> simp [EXPO_BITS, EXPO_BIAS]
  have hsg : (u_from_f fmt x &&& M_SIGN fmt != 0) = signBit fmt x := rfl
  rw [ht1, ht2, hsg]
  rw [print_mant_eq fmt _ hmlt]
  by_cases hz : expoField fmt x = 0
  · simp [hz]
  · have hz' : ((expoField fmt x : Nat) : Int) ≠ 0 := by exact_mod_cast hz
    simp [hz, hz']

theorem is0_eq (fmt : Fmt) (f : Nat) : is0 fmt f = (f % 2 ^ (FBITS fmt - 1) == 0) := by
  simp only [is0, strip_sign_eq_mod]

theorem isnum_eq (fmt : Fmt) (f : Nat) :
    isnum fmt f = decide (f % 2 ^ (FBITS fmt - 1) < P_INF fmt) := by
  simp only [isnum, strip_sign_eq_mod]

/-! ## Reading back the output of `print_float_bin` -/


theorem takeWhile_hex (hex dec : List Char) (hall : ∀ c ∈ hex, (hexVal c).isSome = true) :
    (hex ++ 'p' :: dec).takeWhile (fun c => (hexVal c).isSome) = hex := by
  induction hex with
  | nil =>
    have hp : (hexVal 'p').isSome = false := by decide
    simp [List.takeWhile_cons, hp]
  | cons c cs ih =>
    have hc := hall c (List.mem_cons_self _ _)
    simp only [List.cons_append, List.takeWhile_cons, hc, if_true]
    rw [ih (fun x hx => hall x (List.mem_cons_of_mem _ hx))]

theorem dropWhile_hex (hex dec : List Char) (hall : ∀ c ∈ hex, (hexVal c).isSome = true) :
    (hex ++ 'p' :: dec).dropWhile (fun c => (hexVal c).isSome) = 'p' :: dec := by
  induction hex with
  | nil =>
    have hp : (hexVal 'p').isSome = false := by decide
    simp [List.dropWhile_cons, hp]
  | cons c cs ih =>
    have hc := hall c (List.mem_cons_self _ _)
    simp only [List.cons_append, List.dropWhile_cons, hc, if_true]
    rw [ih (fun x hx => hall x (List.mem_cons_of_mem _ hx))]

theorem readMagnitude_hex (d : Char) (hex dec : List Char)
    (hall : ∀ c ∈ hex, (hexVal c).isSome = true) (dv fv : Nat) (e : Int)
    (hd : hexVal d = some dv) (hf : readDigits 16 hexVal hex = some fv)
    (he : readInt dec = some e) :
    readMagnitude ('0' :: 'x' :: d :: '.' :: (hex ++ 'p' :: dec))
      = some (((dv : ℚ) + (fv : ℚ) / (16 : ℚ) ^ hex.length) * (2 : ℚ) ^ e) := by
  rw [readMagnitude]
  simp only [takeWhile_hex hex dec hall, dropWhile_hex hex dec hall, hd, hf, he]

theorem print_float_bin_zero (fmt : Fmt) (x : Nat) (h0 : x % 2 ^ (FBITS fmt - 1) = 0) :
    print_float_bin fmt x = [if signBit fmt x then '-' else ' ', '0', '.', '0'] := by
  have hp : ¬ (P_INF fmt < 0) := by omega
  unfold print_float_bin
  simp only [strip_sign_eq_mod, h0, gt_iff_lt, hp, if_false, if_true]
  rfl

theorem fields_of_zero (fmt : Fmt) (x : Nat) (h0 : x % 2 ^ (FBITS fmt - 1) = 0) :
    expoField fmt x = 0 ∧ mantField fmt x = 0 := by
  rw [expoField_eq, mantField_eq]
  revert h0
  cases fmt <;> simp [FBITS, MANT_BITS, EXPO_BITS] <;> omega

theorem magRat_of_zero (fmt : Fmt) (x : Nat) (h0 : x % 2 ^ (FBITS fmt - 1) = 0) :
    magRat fmt x = 0 := by
  obtain ⟨he, hm⟩ := fields_of_zero fmt x h0
  simp [magRat, he, hm]

theorem hex_fraction_eq (fmt : Fmt) (m : Nat) :
    ((m * mantScale fmt : Nat) : ℚ) / (16 : ℚ) ^ hexWidth fmt = (m : ℚ) / 2 ^ MANT_BITS fmt := by
  cases fmt
  · simp only [mantScale, hexWidth, MANT_BITS, FBITS, EXPO_BITS]
    push_cast
    rw [div_eq_div_iff (by positivity) (by positivity)]
    norm_num
    ring
  · simp only [mantScale, hexWidth, MANT_BITS, FBITS, EXPO_BITS]
    push_cast
    rw [div_eq_div_iff (by positivity) (by positivity)]
    norm_num

theorem mantField_lt (fmt : Fmt) (x : Nat) : mantField fmt x < 2 ^ MANT_BITS fmt := by
  rw [mantField_eq]; exact Nat.mod_lt _ (by positivity)

theorem expoField_lt (fmt : Fmt) (x : Nat) : expoField fmt x < 2 ^ EXPO_BITS fmt := by
  rw [expoField_eq]; exact Nat.mod_lt _ (by positivity)

theorem readMagnitude_print (fmt : Fmt) (x : Nat)
    (h0 : x % 2 ^ (FBITS fmt - 1) ≠ 0) (hfin : x % 2 ^ (FBITS fmt - 1) < P_INF fmt) :
    readMagnitude (['0', 'x', (if expoField fmt x ≠ 0 then '1' else '0'), '.']
          ++ printf_0x (hexWidth fmt) (mantField fmt x * mantScale fmt)
          ++ 'p' :: printf_d (if expoField fmt x ≠ 0
              then (expoField fmt x : Int) - EXPO_BIAS fmt else 1 - (EXPO_BIAS fmt : Int)))
      = some (magRat fmt x) := by
  have hmlt := mantField_lt fmt x
  have helt := expoField_lt fmt x
  have hn : mantField fmt x * mantScale fmt < 16 ^ hexWidth fmt := by
    revert hmlt
    cases fmt
    · simp only [MANT_BITS, FBITS, EXPO_BITS, mantScale, hexWidth]; omega
    · simp only [MANT_BITS, FBITS, EXPO_BITS, mantScale, hexWidth]; omega
  have hn64 : mantField fmt x * mantScale fmt < 16 ^ 64 :=
    lt_of_lt_of_le hn (Nat.pow_le_pow_right (by omega) (by cases fmt <;> simp [hexWidth]))
  have hw : 0 < hexWidth fmt := by cases fmt <;> simp [hexWidth]
  have hz : (if expoField fmt x ≠ 0
      then (expoField fmt x : Int) - EXPO_BIAS fmt else 1 - (EXPO_BIAS fmt : Int)).natAbs
        < 10 ^ 64 := by
    revert helt
    cases fmt <;> (simp only [EXPO_BITS, EXPO_BIAS]; intro helt; split <;> omega)
  have hd : hexVal (if expoField fmt x ≠ 0 then '1' else '0')
      = some (if expoField fmt x ≠ 0 then 1 else 0) := by
    split <;> decide
  have := readMagnitude_hex _ _ _ (printf_0x_all_hex (hexWidth fmt) _) _ _ _ hd
    (readDigits_printf_0x (hexWidth fmt) _ hn64) (readInt_printf_d _ hz)
  simp only [List.cons_append, List.nil_append] at this ⊢
  rw [this, printf_0x_length _ _ hw hn, hex_fraction_eq]
  congr 1
  unfold magRat
  by_cases he : expoField fmt x = 0
  · simp [he]
  · simp [he]

theorem readHexFloat_print (fmt : Fmt) (x : Nat) (hfin : x % 2 ^ (FBITS fmt - 1) < P_INF fmt) :
    readHexFloat (print_float_bin fmt x) = some (signBit fmt x, magRat fmt x) := by
  by_cases h0 : x % 2 ^ (FBITS fmt - 1) = 0
  · rw [print_float_bin_zero fmt x h0, magRat_of_zero fmt x h0]
    cases signBit fmt x <;> simp [readHexFloat, readMagnitude]
  · have key := readMagnitude_print fmt x h0 hfin
    rw [print_float_bin_finite fmt x h0 hfin]
    cases signBit fmt x
    · simp only [Bool.false_eq_true, if_false, readHexFloat, key, Option.map_some']
    · simp only [if_true, readHexFloat, key, Option.map_some']

theorem M_SIGN_eq (fmt : Fmt) : M_SIGN fmt = 2 ^ (FBITS fmt - 1) := by
  cases fmt <;> decide

theorem signBit_iff (fmt : Fmt) (x : Nat) :
    signBit fmt x = true ↔ x / 2 ^ (FBITS fmt - 1) % 2 = 1 := by
  unfold signBit
  rw [M_SIGN_eq, Nat.and_two_pow, Nat.testBit_to_div_mod]
  by_cases h : x / 2 ^ (FBITS fmt - 1) % 2 = 1
  · simp [h]
  · simp [h]

theorem bits_decomp (fmt : Fmt) (x : Nat) (hx : x < 2 ^ FBITS fmt) :
    (if signBit fmt x then M_SIGN fmt else 0) + (expoField fmt x <<< MANT_BITS fmt)
      + mantField fmt x = x := by
  have hs := signBit_iff fmt x
  rw [expoField_eq, mantField_eq, M_SIGN_eq, Nat.shiftLeft_eq]
  revert hs hx
  cases fmt <;> simp only [FBITS, MANT_BITS, EXPO_BITS] <;> intro hx hs <;>
    (split <;> simp_all <;> omega)

theorem two_zpow_pos (z : ℤ) : (0 : ℚ) < 2 ^ z := zpow_pos (by norm_num) z

theorem mant_frac_lt_one (fmt : Fmt) (x : Nat) :
    (mantField fmt x : ℚ) / 2 ^ MANT_BITS fmt < 1 := by
  rw [div_lt_one (by positivity)]
  exact_mod_cast mantField_lt fmt x

theorem mant_frac_nonneg (fmt : Fmt) (x : Nat) :
    (0 : ℚ) ≤ (mantField fmt x : ℚ) / 2 ^ MANT_BITS fmt := by positivity

theorem magRat_nonneg (fmt : Fmt) (x : Nat) : 0 ≤ magRat fmt x := by
  unfold magRat
  have := two_zpow_pos ((1 : ℤ) - EXPO_BIAS fmt)
  have := two_zpow_pos ((expoField fmt x : ℤ) - EXPO_BIAS fmt)
  split <;> positivity

/-- Characterisation of the binary logarithm by a dyadic bracket. -/
theorem Int_log_two_eq (q : ℚ) (k : ℤ) (h1 : (2 : ℚ) ^ k ≤ q) (h2 : q < (2 : ℚ) ^ (k + 1)) :
    Int.log 2 q = k := by
  have hq : 0 < q := lt_of_lt_of_le (two_zpow_pos k) h1
  have a : k ≤ Int.log 2 q := (Int.zpow_le_iff_le_log (by norm_num) hq).mp (by exact_mod_cast h1)
  have b : Int.log 2 q < k + 1 :=
    (Int.lt_zpow_iff_log_lt (by norm_num) hq).mp (by exact_mod_cast h2)
  omega

theorem encodeFinite_magRat (fmt : Fmt) (x : Nat) (hx : x < 2 ^ FBITS fmt)
    (hfin : x % 2 ^ (FBITS fmt - 1) < P_INF fmt) :
    encodeFinite fmt (signBit fmt x) (magRat fmt x) = some x := by
  have hdec := bits_decomp fmt x hx
  have hm1 := mant_frac_lt_one fmt x
  have hm0 := mant_frac_nonneg fmt x
  have hnn := magRat_nonneg fmt x
  have h2 : (2 : ℚ) ≠ 0 := by norm_num
  unfold encodeFinite
  simp only [not_lt_of_ge hnn, if_false]
  by_cases he : expoField fmt x = 0
  · -- zero or subnormal
    have hq : magRat fmt x
        = (mantField fmt x : ℚ) / 2 ^ MANT_BITS fmt * (2 : ℚ) ^ ((1 : ℤ) - EXPO_BIAS fmt) := by
      simp [magRat, he]
    have hlt : magRat fmt x < (2 : ℚ) ^ ((1 : ℤ) - EXPO_BIAS fmt) := by
      rw [hq]
      have := two_zpow_pos ((1 : ℤ) - EXPO_BIAS fmt)
      nlinarith
    have hsc : magRat fmt x * (2 : ℚ) ^ ((EXPO_BIAS fmt : ℤ) - 1 + MANT_BITS fmt)
        = (mantField fmt x : ℚ) := by
      rw [hq, mul_assoc, ← zpow_add₀ h2]
      have : (1 : ℤ) - EXPO_BIAS fmt + ((EXPO_BIAS fmt : ℤ) - 1 + MANT_BITS fmt)
          = (MANT_BITS fmt : ℤ) := by ring
      rw [this, zpow_natCast]
      field_simp
    simp only [hlt, if_true, hsc, Rat.den_natCast, Rat.num_natCast, Int.toNat_natCast]
    rw [he] at hdec
    simp at hdec
    simp [hdec]
  · -- normal
    have he1 : 1 ≤ expoField fmt x := Nat.one_le_iff_ne_zero.mpr he
    have hq : magRat fmt x = (1 + (mantField fmt x : ℚ) / 2 ^ MANT_BITS fmt)
        * (2 : ℚ) ^ ((expoField fmt x : ℤ) - EXPO_BIAS fmt) := by
      simp [magRat, he]
    have hpos := two_zpow_pos ((expoField fmt x : ℤ) - EXPO_BIAS fmt)
    have hge : (2 : ℚ) ^ ((expoField fmt x : ℤ) - EXPO_BIAS fmt) ≤ magRat fmt x := by
      rw [hq]; nlinarith
    have hlt : magRat fmt x < (2 : ℚ) ^ ((expoField fmt x : ℤ) - EXPO_BIAS fmt + 1) := by
      rw [hq, zpow_add_one₀ h2]; nlinarith
    have hmin : ¬ magRat fmt x < (2 : ℚ) ^ ((1 : ℤ) - EXPO_BIAS fmt) := by
      rw [not_lt]
      refine le_trans (zpow_le_zpow_right₀ (by norm_num) ?_) hge
      omega
    have hlog := Int_log_two_eq _ _ hge hlt
    have hmant : (magRat fmt x / (2 : ℚ) ^ ((expoField fmt x : ℤ) - EXPO_BIAS fmt) - 1)
        * 2 ^ MANT_BITS fmt = (mantField fmt x : ℚ) := by
      rw [hq]; field_simp; ring
    have helt : expoField fmt x < 2 ^ EXPO_BITS fmt - 1 := by
      rw [expoField_eq]
      have hfin' := hfin
      revert hfin'
      cases fmt <;> simp [P_INF, FBITS, MANT_BITS, EXPO_BITS] <;> omega
    have hbe : ((expoField fmt x : ℤ) - EXPO_BIAS fmt + EXPO_BIAS fmt) = expoField fmt x := by
      ring
    simp only [hmin, if_false, hlog, hmant, hbe, Rat.den_natCast, Rat.num_natCast,
      Int.toNat_natCast, true_and]
    have : ((expoField fmt x : ℤ) < 2 ^ EXPO_BITS fmt - 1) := by
      have : (expoField fmt x : ℤ) < ((2 ^ EXPO_BITS fmt - 1 : ℕ) : ℤ) := by exact_mod_cast helt
      have h1 : 1 ≤ 2 ^ EXPO_BITS fmt := Nat.one_le_two_pow
      push_cast [Nat.cast_sub h1] at this
      exact this
    simp [this, hdec]

/-! ## Spacing of the floating-point grid -/

theorem magRat_eq_units (fmt : Fmt) (f : Nat) :
    magRat fmt f = (magUnits fmt f : ℚ) * (2 : ℚ) ^ ((1 : ℤ) - EXPO_BIAS fmt - MANT_BITS fmt) := by
  have h2 : (2 : ℚ) ≠ 0 := by norm_num
  have hM : (2 : ℚ) ^ ((1 : ℤ) - EXPO_BIAS fmt - MANT_BITS fmt)
      = (2 : ℚ) ^ ((1 : ℤ) - EXPO_BIAS fmt) / 2 ^ MANT_BITS fmt := by
    rw [zpow_sub₀ h2, zpow_natCast]
  unfold magRat magUnits
  split
  · rw [hM]; ring
  · rename_i he
    have he1 : 1 ≤ expoField fmt f := Nat.one_le_iff_ne_zero.mpr he
    have hE : (2 : ℚ) ^ ((expoField fmt f : ℤ) - EXPO_BIAS fmt)
        = (2 : ℚ) ^ (expoField fmt f - 1) * (2 : ℚ) ^ ((1 : ℤ) - EXPO_BIAS fmt) := by
      rw [← zpow_natCast, ← zpow_add₀ h2]
      congr 1
      push_cast [Nat.cast_sub he1]
      ring
    rw [hM, hE]
    push_cast
    field_simp
    ring

theorem grid_gap_core (X T n : ℤ) (hX : 0 < X) (hT : X ≤ T) (hn : n < X) :
    T ≤ X * (T - n) := by
  nlinarith

theorem grid_gap_scale (X n D P : ℤ) (hX : 0 < X) (hn : n < X) (hD : 1 ≤ D) (hP : 0 < P) :
    n * P ≤ X * (D * P) := by
  have h1 : n * P ≤ X * P := by nlinarith
  have h2 : X * P ≤ X * (D * P) := by
    nlinarith [mul_nonneg (sub_nonneg.mpr hD) (le_of_lt (mul_pos hX hP))]
  linarith

theorem grid_gap (M p q na nb : Nat) (ha : na < 2 ^ (M + 1)) (hb : nb < 2 ^ (M + 1))
    (hpa : 0 < p → 2 ^ M ≤ na) (hqb : 0 < q → 2 ^ M ≤ nb)
    (hne : na * 2 ^ p ≠ nb * 2 ^ q) :
    ((nb * 2 ^ q : ℕ) : ℤ) ≤ 2 ^ (M + 1) * |((na * 2 ^ p : ℕ) : ℤ) - ((nb * 2 ^ q : ℕ) : ℤ)| := by
  have hX : (0 : ℤ) < 2 ^ (M + 1) := by positivity
  have ha' : (na : ℤ) < 2 ^ (M + 1) := by exact_mod_cast ha
  have hb' : (nb : ℤ) < 2 ^ (M + 1) := by exact_mod_cast hb
  rcases Nat.lt_trichotomy p q with hpq | hpq | hpq
  · -- the second magnitude lies in a higher binade
    obtain ⟨d, rfl⟩ := Nat.exists_eq_add_of_lt hpq
    have hnb : (2 : ℤ) ^ M ≤ nb := by exact_mod_cast hqb (by omega)
    have hd : (2 : ℤ) ≤ 2 ^ (d + 1) := by
      have : (2 : ℤ) ^ 1 ≤ 2 ^ (d + 1) := pow_le_pow_right₀ (by norm_num) (by omega)
      simpa using this
    have hP : (0 : ℤ) < 2 ^ p := by positivity
    have hT : (2 : ℤ) ^ (M + 1) ≤ nb * 2 ^ (d + 1) := by
      rw [pow_succ]; nlinarith [pow_pos (show (0:ℤ) < 2 by norm_num) M]
    have key := grid_gap_core (2 ^ (M + 1)) (nb * 2 ^ (d + 1)) na hX hT ha'
    have hlt : (na : ℤ) < nb * 2 ^ (d + 1) := lt_of_lt_of_le ha' hT
    have e1 : ((na * 2 ^ p : ℕ) : ℤ) - ((nb * 2 ^ (p + d + 1) : ℕ) : ℤ)
        = - ((nb * 2 ^ (d + 1) - na) * 2 ^ p) := by
      push_cast; ring
    rw [e1, abs_neg, abs_of_nonneg (by nlinarith)]
    push_cast
    have : (nb : ℤ) * 2 ^ (p + d + 1) = nb * 2 ^ (d + 1) * 2 ^ p := by ring
    rw [this]
    nlinarith
  · subst hpq
    have hne' : (na : ℤ) ≠ nb := by
      intro h
      apply hne
      have : na = nb := by exact_mod_cast h
      rw [this]
    have hP : (0 : ℤ) < 2 ^ p := by positivity
    have e1 : ((na * 2 ^ p : ℕ) : ℤ) - ((nb * 2 ^ p : ℕ) : ℤ) = ((na : ℤ) - nb) * 2 ^ p := by
      push_cast; ring
    rw [e1, abs_mul, abs_of_pos hP]
    have h1 : (1 : ℤ) ≤ |(na : ℤ) - nb| := Int.one_le_abs (sub_ne_zero.mpr hne')
    push_cast
    exact grid_gap_scale _ _ _ _ hX hb' h1 hP
  · -- the first magnitude lies in a higher binade
    obtain ⟨d, rfl⟩ := Nat.exists_eq_add_of_lt hpq
    have hna : (2 : ℤ) ^ M ≤ na := by exact_mod_cast hpa (by omega)
    have hd : (2 : ℤ) ≤ 2 ^ (d + 1) := by
      have : (2 : ℤ) ^ 1 ≤ 2 ^ (d + 1) := pow_le_pow_right₀ (by norm_num) (by omega)
      simpa using this
    have hQ : (0 : ℤ) < 2 ^ q := by positivity
    have hS : (2 : ℤ) ^ (M + 1) ≤ na * 2 ^ (d + 1) := by
      rw [pow_succ]; nlinarith [pow_pos (show (0:ℤ) < 2 by norm_num) M]
    have e1 : ((na * 2 ^ (q + d + 1) : ℕ) : ℤ) - ((nb * 2 ^ q : ℕ) : ℤ)
        = (na * 2 ^ (d + 1) - nb) * 2 ^ q := by
      push_cast; ring
    have hpos : (1 : ℤ) ≤ na * 2 ^ (d + 1) - nb := by linarith
    rw [e1, abs_of_nonneg (by nlinarith)]
    push_cast
    exact grid_gap_scale _ _ _ _ hX hb' hpos hQ

theorem magUnits_eq (fmt : Fmt) (f : Nat) :
    magUnits fmt f = (if expoField fmt f = 0 then mantField fmt f
      else 2 ^ MANT_BITS fmt + mantField fmt f) * 2 ^ (expoField fmt f - 1) := by
  unfold magUnits
  split
  · rename_i h; simp [h]
  · rfl

/-- Two finite patterns of different magnitude: the reference magnitude is at most
`2 ^ (MANT_BITS + 1)` times the distance. -/
theorem magUnits_gap (fmt : Fmt) (f1 f0 : Nat) (hne : magUnits fmt f1 ≠ magUnits fmt f0) :
    ((magUnits fmt f0 : ℕ) : ℤ)
      ≤ 2 ^ (MANT_BITS fmt + 1) * |((magUnits fmt f1 : ℕ) : ℤ) - ((magUnits fmt f0 : ℕ) : ℤ)| := by
  have hm1 := mantField_lt fmt f1
  have hm0 := mantField_lt fmt f0
  rw [magUnits_eq fmt f1, magUnits_eq fmt f0] at hne ⊢
  apply grid_gap (MANT_BITS fmt) _ _ _ _ _ _ _ _ hne
  · split <;> rw [pow_succ] <;> omega
  · split <;> rw [pow_succ] <;> omega
  · intro h; rw [if_neg (by omega)]; omega
  · intro h; rw [if_neg (by omega)]; omega

theorem abs_toRat (fmt : Fmt) (f : Nat) : |toRat fmt f| = magRat fmt f := by
  unfold toRat
  split
  · rw [abs_neg, abs_of_nonneg (magRat_nonneg fmt f)]
  · exact abs_of_nonneg (magRat_nonneg fmt f)

theorem unit_pos (fmt : Fmt) : (0 : ℚ) < (2 : ℚ) ^ ((1 : ℤ) - EXPO_BIAS fmt - MANT_BITS fmt) :=
  two_zpow_pos _

/-- Relative distance of two different values of the format (reference nonzero), in the
form `|y| ≤ 2 ^ (MANT_BITS + 1) * |x - y|`. -/
theorem toRat_gap (fmt : Fmt) (f1 f0 : Nat) (hne : toRat fmt f1 ≠ toRat fmt f0) :
    |toRat fmt f0| ≤ 2 ^ (MANT_BITS fmt + 1) * |toRat fmt f1 - toRat fmt f0| := by
  have hu := unit_pos fmt
  by_cases hK : magUnits fmt f1 = magUnits fmt f0
  · -- equal magnitudes, different values: opposite signs
    have hmag : magRat fmt f1 = magRat fmt f0 := by
      rw [magRat_eq_units, magRat_eq_units, hK]
    have h0 := magRat_nonneg fmt f0
    have hx : toRat fmt f1 = - toRat fmt f0 := by
      unfold toRat at hne ⊢
      split <;> split <;> simp_all
    rw [hx, abs_toRat]
    have : |(- toRat fmt f0) - toRat fmt f0| = 2 * magRat fmt f0 := by
      rw [show (- toRat fmt f0) - toRat fmt f0 = -(2 * toRat fmt f0) by ring, abs_neg, abs_mul,
        abs_toRat]
      norm_num
    rw [this]
    have hp : (1 : ℚ) ≤ 2 ^ (MANT_BITS fmt + 1) := one_le_pow₀ (by norm_num)
    nlinarith
  · have hgap := magUnits_gap fmt f1 f0 hK
    have hq : ((magUnits fmt f0 : ℕ) : ℚ)
        ≤ 2 ^ (MANT_BITS fmt + 1) * |((magUnits fmt f1 : ℕ) : ℚ) - ((magUnits fmt f0 : ℕ) : ℚ)| := by
      have := (Int.cast_le (R := ℚ)).mpr hgap
      push_cast at this
      simpa using this
    have hrev := abs_abs_sub_abs_le (toRat fmt f1) (toRat fmt f0)
    rw [abs_toRat, abs_toRat] at hrev
    rw [abs_toRat]
    have hexp : |magRat fmt f1 - magRat fmt f0|
        = |((magUnits fmt f1 : ℕ) : ℚ) - ((magUnits fmt f0 : ℕ) : ℚ)|
          * (2 : ℚ) ^ ((1 : ℤ) - EXPO_BIAS fmt - MANT_BITS fmt) := by
      rw [magRat_eq_units, magRat_eq_units, ← sub_mul, abs_mul, abs_of_pos hu]
    have hp : (0 : ℚ) < 2 ^ (MANT_BITS fmt + 1) := by positivity
    calc magRat fmt f0
        = (magUnits fmt f0 : ℚ) * (2 : ℚ) ^ ((1 : ℤ) - EXPO_BIAS fmt - MANT_BITS fmt) :=
          magRat_eq_units fmt f0
      _ ≤ (2 ^ (MANT_BITS fmt + 1)
            * |((magUnits fmt f1 : ℕ) : ℚ) - ((magUnits fmt f0 : ℕ) : ℚ)|)
            * (2 : ℚ) ^ ((1 : ℤ) - EXPO_BIAS fmt - MANT_BITS fmt) :=
          mul_le_mul_of_nonneg_right hq (le_of_lt hu)
      _ = 2 ^ (MANT_BITS fmt + 1) * |magRat fmt f1 - magRat fmt f0| := by rw [hexp]; ring
      _ ≤ 2 ^ (MANT_BITS fmt + 1) * |toRat fmt f1 - toRat fmt f0| :=
          mul_le_mul_of_nonneg_left hrev (le_of_lt hp)

/-! ## Error analysis in exact arithmetic -/

theorem bitacc_exact_zero (fmt : Fmt) : bitacc fmt exactArith 0 = -(MANT_BITS fmt : ℝ) := by
  simp [bitacc, exactArith]

theorem bitacc_exact_ne (fmt : Fmt) (r : ℝ) (hr : r ≠ 0) :
    bitacc fmt exactArith r = 1 + Real.logb 2 |r| := by
  simp [bitacc, exactArith, hr]

theorem logb_two_inv_pow (k : ℕ) : Real.logb 2 ((2 : ℝ) ^ k)⁻¹ = -(k : ℝ) := by
  rw [Real.logb_inv, Real.logb_pow, Real.logb_self_eq_one (by norm_num)]; ring

theorem bitacc_exact_ge (fmt : Fmt) (r : ℝ) (h : r = 0 ∨ ((2 : ℝ) ^ (MANT_BITS fmt + 1))⁻¹ ≤ |r|) :
    -(MANT_BITS fmt : ℝ) ≤ bitacc fmt exactArith r := by
  by_cases hr : r = 0
  · rw [hr, bitacc_exact_zero]
  · rcases h with h | h
    · exact absurd h hr
    · rw [bitacc_exact_ne fmt r hr]
      have hpos : (0 : ℝ) < ((2 : ℝ) ^ (MANT_BITS fmt + 1))⁻¹ := by positivity
      have := Real.logb_le_logb_of_le (b := 2) (by norm_num) hpos h
      rw [logb_two_inv_pow] at this
      push_cast at this
      linarith

theorem bitacc_exact_eq (fmt : Fmt) (r : ℝ) (h : |r| = ((2 : ℝ) ^ (MANT_BITS fmt + 1))⁻¹) :
    bitacc fmt exactArith r = -(MANT_BITS fmt : ℝ) := by
  have hr : r ≠ 0 := by
    intro h0
    rw [h0, abs_zero] at h
    have : (0 : ℝ) < ((2 : ℝ) ^ (MANT_BITS fmt + 1))⁻¹ := by positivity
    linarith
  rw [bitacc_exact_ne fmt r hr, h, logb_two_inv_pow]
  push_cast; ring

theorem rel_err_exact (fmt : Fmt) (x y : ℝ) :
    (sample_errors fmt exactArith x y).rel_err
      = if y = 0 then (if x = 0 then 0 else 1) else (x - y) / |y| := by
  simp only [sample_errors, exactArith, decide_eq_true_eq]
  split
  · split <;> simp
  · rfl

theorem bit_err_eq (fmt : Fmt) {F : Type} (A : Arith F) (w1 w0 : F) :
    (sample_errors fmt A w1 w0).bit_err = bitacc fmt A (sample_errors fmt A w1 w0).rel_err := rfl

/-- Exact relative error of two values of the format: zero, or at least
`2 ^ -(MANT_BITS + 1)` in magnitude. -/
theorem rel_err_exact_bound (fmt : Fmt) (w1 w0 : Nat) :
    (sample_errors fmt exactArith (toRat fmt w1 : ℝ) (toRat fmt w0 : ℝ)).rel_err = 0
    ∨ ((2 : ℝ) ^ (MANT_BITS fmt + 1))⁻¹
        ≤ |(sample_errors fmt exactArith (toRat fmt w1 : ℝ) (toRat fmt w0 : ℝ)).rel_err| := by
  rw [rel_err_exact]
  have hle1 : ((2 : ℝ) ^ (MANT_BITS fmt + 1))⁻¹ ≤ 1 :=
    inv_le_one_of_one_le₀ (one_le_pow₀ (by norm_num))
  split
  · split
    · left; rfl
    · right; simpa using hle1
  · rename_i hy
    by_cases hxy : toRat fmt w1 = toRat fmt w0
    · left; simp [hxy]
    · right
      have hg := toRat_gap fmt w1 w0 hxy
      have hg' : |(toRat fmt w0 : ℝ)|
          ≤ 2 ^ (MANT_BITS fmt + 1) * |(toRat fmt w1 : ℝ) - (toRat fmt w0 : ℝ)| := by
        exact_mod_cast hg
      have hy' : 0 < |(toRat fmt w0 : ℝ)| := abs_pos.mpr hy
      rw [abs_div, abs_abs, le_div_iff₀ hy', inv_mul_le_iff₀ (by positivity)]
      exact hg'

/-! ## Classification (`is0`, `isnum`) and the hex-float round trip -/

theorem stripped_lt_iff (fmt : Fmt) (f : Nat) :
    f % 2 ^ (FBITS fmt - 1) < P_INF fmt ↔ expoField fmt f ≠ 2 ^ EXPO_BITS fmt - 1 := by
  rw [expoField_eq]
  cases fmt <;> simp [FBITS, P_INF, MANT_BITS, EXPO_BITS] <;> omega

theorem stripped_eq_zero_iff (fmt : Fmt) (f : Nat) :
    f % 2 ^ (FBITS fmt - 1) = 0 ↔ expoField fmt f = 0 ∧ mantField fmt f = 0 := by
  rw [expoField_eq, mantField_eq]
  cases fmt <;> simp [FBITS, MANT_BITS, EXPO_BITS] <;> omega

theorem magRat_eq_zero_iff (fmt : Fmt) (f : Nat) :
    magRat fmt f = 0 ↔ f % 2 ^ (FBITS fmt - 1) = 0 := by
  constructor
  · intro h
    rw [stripped_eq_zero_iff]
    unfold magRat at h
    have hm0 := mant_frac_nonneg fmt f
    split at h
    · rename_i he
      refine ⟨he, ?_⟩
      have hp := two_zpow_pos ((1 : ℤ) - EXPO_BIAS fmt)
      rcases mul_eq_zero.mp h with h' | h'
      · rw [div_eq_zero_iff] at h'
        rcases h' with h' | h'
        · exact_mod_cast h'
        · exact absurd h' (by positivity)
      · exact absurd h' (ne_of_gt hp)
    · have hp := two_zpow_pos ((expoField fmt f : ℤ) - EXPO_BIAS fmt)
      rcases mul_eq_zero.mp h with h' | h'
      · linarith
      · exact absurd h' (ne_of_gt hp)
  · exact magRat_of_zero fmt f

theorem toRat_eq_zero_iff (fmt : Fmt) (f : Nat) :
    toRat fmt f = 0 ↔ f % 2 ^ (FBITS fmt - 1) = 0 := by
  rw [← magRat_eq_zero_iff]
  unfold toRat
  split
  · exact neg_eq_zero
  · exact Iff.rfl

/-- C2: `is0 (f)` holds exactly for the patterns of +0.0 and -0.0; it fails for every
finite pattern of nonzero value (the smallest subnormal included), for both infinities
and for every NaN, in the 32-bit and in the 64-bit format. -/
theorem is0_iff_zero_pattern (fmt : Fmt) (f : Nat) (hf : f < 2 ^ FBITS fmt) :
    (is0 fmt f = true ↔ f = 0 ∨ f = M_SIGN fmt)
    ∧ (isnum fmt f = true → toRat fmt f ≠ 0 → is0 fmt f = false)
    ∧ (expoField fmt f = 2 ^ EXPO_BITS fmt - 1 → is0 fmt f = false)
    ∧ is0 fmt 1 = false ∧ is0 fmt (M_SIGN fmt + 1) = false
    ∧ is0 fmt (P_INF fmt) = false ∧ is0 fmt (M_SIGN fmt + P_INF fmt) = false := by
  have hiff : is0 fmt f = true ↔ f = 0 ∨ f = M_SIGN fmt := by
    rw [is0_eq]
    cases fmt <;> simp [FBITS, M_SIGN] at hf ⊢ <;> omega
  refine ⟨hiff, ?_, ?_, ?_⟩
  · intro _ hne
    rw [is0_eq]
    have := (toRat_eq_zero_iff fmt f).not.mp hne
    simpa using this
  · intro he
    rw [is0_eq]
    have h1 : ¬ (expoField fmt f = 0 ∧ mantField fmt f = 0) := by
      intro h
      rw [h.1] at he
      cases fmt <;> simp [EXPO_BITS] at he
    have := (stripped_eq_zero_iff fmt f).not.mpr h1
    simpa using this
  · cases fmt <;> decide

theorem is0_iff_zero_pattern_witness :
    (0x80000000 : Nat) < 2 ^ FBITS .f32
    ∧ (is0 .f32 0x80000000 = true ↔ (0x80000000 : Nat) = 0 ∨ 0x80000000 = M_SIGN .f32) :=
  ⟨by decide, (is0_iff_zero_pattern .f32 0x80000000 (by decide)).1⟩

/-- C3: `isnum (f)` holds exactly when the biased-exponent field of `f` is not all ones:
it holds for every zero, subnormal and normal pattern and fails for both infinities and
every NaN, because the sign-stripped pattern is compared strictly with `P_INF`, whose
exponent field is all ones and whose mantissa field is zero. -/
theorem isnum_iff_expo_not_all_ones (fmt : Fmt) (f : Nat) :
    (isnum fmt f = true ↔ expoField fmt f ≠ 2 ^ EXPO_BITS fmt - 1)
    ∧ (isnum fmt f = decide (u_from_f fmt f &&& unot fmt (M_SIGN fmt) < P_INF fmt))
    ∧ expoField fmt (P_INF fmt) = 2 ^ EXPO_BITS fmt - 1 ∧ mantField fmt (P_INF fmt) = 0
    ∧ (expoField fmt f < 2 ^ EXPO_BITS fmt - 1 → isnum fmt f = true)
    ∧ isnum fmt (P_INF fmt) = false ∧ isnum fmt (M_SIGN fmt + P_INF fmt) = false
    ∧ (expoField fmt f = 2 ^ EXPO_BITS fmt - 1 → mantField fmt f ≠ 0 → isnum fmt f = false) := by
  have hiff : isnum fmt f = true ↔ expoField fmt f ≠ 2 ^ EXPO_BITS fmt - 1 := by
    rw [isnum_eq, decide_eq_true_iff]
    exact stripped_lt_iff fmt f
  refine ⟨hiff, rfl, ?_, ?_, ?_, ?_, ?_, ?_⟩
  · cases fmt <;> decide
  · cases fmt <;> decide
  · intro h; exact hiff.mpr (ne_of_lt h)
  · cases fmt <;> decide
  · cases fmt <;> decide
  · intro h _
    have := hiff.not.mpr (not_not.mpr h)
    simpa using this

/-- Parsing the output of `print_float_bin` on a finite input returns the input. -/
theorem hex_decode_print (fmt : Fmt) (x : Nat) (hx : x < 2 ^ FBITS fmt)
    (hfin : isnum fmt x = true) : hex_decode fmt (print_float_bin fmt x) = some x := by
  rw [isnum_eq, decide_eq_true_iff] at hfin
  simp only [hex_decode, readHexFloat_print fmt x hfin, Option.some_bind]
  exact encodeFinite_magRat fmt x hx hfin

/-- C1: hex-float round trip.  For every finite input of `print_float_bin`, in both
formats, the emitted text read as a hex-float literal has the sign and the magnitude of
the input, so it denotes exactly the value of the input; decoding it gives back the
original bit pattern; and two distinct finite bit patterns never produce the same text. -/
theorem print_float_bin_roundtrip (fmt : Fmt) (x : Nat) (hx : x < 2 ^ FBITS fmt)
    (hfin : isnum fmt x = true) :
    readHexFloat (print_float_bin fmt x) = some (signBit fmt x, magRat fmt x)
    ∧ hexFloatValue (print_float_bin fmt x) = some (toRat fmt x)
    ∧ hex_decode fmt (print_float_bin fmt x) = some x
    ∧ ∀ y, y < 2 ^ FBITS fmt → isnum fmt y = true →
        print_float_bin fmt y = print_float_bin fmt x → y = x := by
  have hfin' := hfin
  rw [isnum_eq, decide_eq_true_iff] at hfin'
  have hr := readHexFloat_print fmt x hfin'
  refine ⟨hr, ?_, hex_decode_print fmt x hx hfin, ?_⟩
  · simp only [hexFloatValue, hr, Option.map_some', toRat]
  · intro y hy hyfin heq
    have h1 := hex_decode_print fmt y hy hyfin
    rw [heq, hex_decode_print fmt x hx hfin] at h1
    exact (Option.some.inj h1).symm

theorem print_float_bin_roundtrip_witness :
    (0xbf800001 : Nat) < 2 ^ FBITS .f32 ∧ isnum .f32 0xbf800001 = true
    ∧ hex_decode .f32 (print_float_bin .f32 0xbf800001) = some 0xbf800001 :=
  ⟨by decide, by decide, (print_float_bin_roundtrip .f32 0xbf800001 (by decide) (by decide)).2.2.1⟩

theorem Bool_eq_of_iff (a b : Bool) (h : a = true ↔ b = true) : a = b := by
  cases a <;> cases b <;> simp_all

/-- Fields of the pattern just below a power of two with exponent field at least 2. -/
theorem pred_fields (fmt : Fmt) (w0 : Nat) (hm : mantField fmt w0 = 0)
    (he : 2 ≤ expoField fmt w0) :
    expoField fmt (w0 - 1) = expoField fmt w0 - 1
    ∧ mantField fmt (w0 - 1) = 2 ^ MANT_BITS fmt - 1
    ∧ signBit fmt (w0 - 1) = signBit fmt w0 := by
  rw [expoField_eq] at he
  rw [mantField_eq] at hm
  refine ⟨?_, ?_, Bool_eq_of_iff _ _ ?_⟩
  · rw [expoField_eq, expoField_eq]
    revert he hm
    cases fmt <;> simp only [MANT_BITS, FBITS, EXPO_BITS] <;> omega
  · rw [mantField_eq]
    revert he hm
    cases fmt <;> simp only [MANT_BITS, FBITS, EXPO_BITS] <;> omega
  · rw [signBit_iff, signBit_iff]
    revert he hm
    cases fmt <;> simp only [MANT_BITS, FBITS, EXPO_BITS] <;> omega

/-- A power of two with exponent field at least 2 and the pattern just below it: the
distance is exactly `2 ^ -(MANT_BITS + 1)` of the power of two. -/
theorem pred_gap (fmt : Fmt) (w0 : Nat) (hm : mantField fmt w0 = 0)
    (he : 2 ≤ expoField fmt w0) :
    2 ^ (MANT_BITS fmt + 1) * |toRat fmt (w0 - 1) - toRat fmt w0| = |toRat fmt w0| := by
  obtain ⟨h1, h2, h3⟩ := pred_fields fmt w0 hm he
  have hu := unit_pos fmt
  have hK0 : magUnits fmt w0 = 2 ^ (MANT_BITS fmt + 1) * 2 ^ (expoField fmt w0 - 2) := by
    obtain ⟨k, hk⟩ := Nat.exists_eq_add_of_le he
    rw [magUnits, if_neg (by omega), hm, hk]
    have : 2 + k - 1 = (2 + k - 2) + 1 := by omega
    rw [this, pow_succ, pow_succ]; ring
  have hK1 : magUnits fmt (w0 - 1)
      = (2 ^ (MANT_BITS fmt + 1) - 1) * 2 ^ (expoField fmt w0 - 2) := by
    rw [magUnits, h1, h2, if_neg (by omega)]
    have hp : 1 ≤ 2 ^ MANT_BITS fmt := Nat.one_le_two_pow
    have : 2 ^ MANT_BITS fmt + (2 ^ MANT_BITS fmt - 1) = 2 ^ (MANT_BITS fmt + 1) - 1 := by
      rw [pow_succ]; omega
    rw [this]
    congr 2
  have hdiff : toRat fmt (w0 - 1) - toRat fmt w0
      = (if signBit fmt w0 then (1 : ℚ) else -1) * ((2 : ℚ) ^ (expoField fmt w0 - 2)
          * (2 : ℚ) ^ ((1 : ℤ) - EXPO_BIAS fmt - MANT_BITS fmt)) := by
    unfold toRat
    rw [h3, magRat_eq_units, magRat_eq_units, hK0, hK1]
    have hp : 1 ≤ 2 ^ (MANT_BITS fmt + 1) := Nat.one_le_two_pow
    push_cast [Nat.cast_sub hp]
    split <;> ring
  rw [hdiff, abs_toRat, magRat_eq_units, hK0, abs_mul, abs_of_pos (mul_pos (by positivity) hu)]
  have : |(if signBit fmt w0 then (1 : ℚ) else -1)| = 1 := by split <;> simp
  rw [this]
  push_cast
  ring

theorem toRat_ne_zero_of_expo (fmt : Fmt) (w0 : Nat) (he : 1 ≤ expoField fmt w0) :
    toRat fmt w0 ≠ 0 := by
  rw [Ne, toRat_eq_zero_iff, stripped_eq_zero_iff]
  omega

/-- Exact relative error of the predecessor of a power of two against that power. -/
theorem rel_err_exact_pred (fmt : Fmt) (w0 : Nat) (hm : mantField fmt w0 = 0)
    (he : 2 ≤ expoField fmt w0) :
    |(sample_errors fmt exactArith (toRat fmt (w0 - 1) : ℝ) (toRat fmt w0 : ℝ)).rel_err|
      = ((2 : ℝ) ^ (MANT_BITS fmt + 1))⁻¹ := by
  have hy : (toRat fmt w0 : ℝ) ≠ 0 := by
    exact_mod_cast toRat_ne_zero_of_expo fmt w0 (by omega)
  have hg : (2 : ℝ) ^ (MANT_BITS fmt + 1) * |(toRat fmt (w0 - 1) : ℝ) - (toRat fmt w0 : ℝ)|
      = |(toRat fmt w0 : ℝ)| := by
    exact_mod_cast pred_gap fmt w0 hm he
  rw [rel_err_exact, if_neg hy, abs_div, abs_abs, ← hg]
  have hy' : |(toRat fmt (w0 - 1) : ℝ) - (toRat fmt w0 : ℝ)| ≠ 0 := by
    intro h; rw [h, mul_zero] at hg; exact (abs_pos.mpr hy).ne' hg.symm
  field_simp
  ring

theorem toRat_ff_of_int_zero (fmt : Fmt) : toRat fmt (ff_of_int fmt 0) = 0 := by
  rw [toRat_eq_zero_iff]; cases fmt <;> decide

theorem toRat_ff_of_int_one (fmt : Fmt) : toRat fmt (ff_of_int fmt 1) = 1 := by
  cases fmt
  · have hs : signBit .f32 (ff_of_int .f32 1) = false := by decide
    have he : expoField .f32 (ff_of_int .f32 1) = 127 := by decide
    have hm : mantField .f32 (ff_of_int .f32 1) = 0 := by decide
    have hb : EXPO_BIAS .f32 = 127 := by decide
    simp [toRat, magRat, hs, he, hm, hb]
  · have hs : signBit .f64 (ff_of_int .f64 1) = false := by decide
    have he : expoField .f64 (ff_of_int .f64 1) = 1023 := by decide
    have hm : mantField .f64 (ff_of_int .f64 1) = 0 := by decide
    have hb : EXPO_BIAS .f64 = 1023 := by decide
    simp [toRat, magRat, hs, he, hm, hb]

theorem toRat_ff_of_int_neg_mant (fmt : Fmt) :
    toRat fmt (ff_of_int fmt (-(MANT_BITS fmt : Int))) = -(MANT_BITS fmt : ℚ) := by
  cases fmt
  · have hp : ff_of_int .f32 (-(MANT_BITS .f32 : Int)) = 0xC1B80000 := by decide
    have hs : signBit .f32 0xC1B80000 = true := by decide
    have he : expoField .f32 0xC1B80000 = 131 := by decide
    have hm : mantField .f32 0xC1B80000 = 0x380000 := by decide
    have hb : EXPO_BIAS .f32 = 127 := by decide
    have hM : MANT_BITS .f32 = 23 := by decide
    rw [hp]
    simp only [toRat, magRat, hs, he, hm, hb, hM]
    norm_num
  · have hp : ff_of_int .f64 (-(MANT_BITS .f64 : Int)) = 0xC04A000000000000 := by decide
    have hs : signBit .f64 0xC04A000000000000 = true := by decide
    have he : expoField .f64 0xC04A000000000000 = 1028 := by decide
    have hm : mantField .f64 0xC04A000000000000 = 0xA000000000000 := by decide
    have hb : EXPO_BIAS .f64 = 1023 := by decide
    have hM : MANT_BITS .f64 = 52 := by decide
    rw [hp]
    simp only [toRat, magRat, hs, he, hm, hb, hM]
    norm_num

/-! ## Error figures of a sample -/

theorem is0_of_zero_pattern (fmt : Fmt) (w : Nat) (h : w = 0 ∨ w = M_SIGN fmt) :
    is0 fmt w = true := by
  rcases h with rfl | rfl <;> cases fmt <;> decide

theorem is0_eq_true_iff (fmt : Fmt) (f : Nat) (hf : f < 2 ^ FBITS fmt) :
    is0 fmt f = true ↔ f = 0 ∨ f = M_SIGN fmt := by
  rw [is0_eq]
  cases fmt <;> simp [FBITS, M_SIGN] at hf ⊢ <;> omega

/-- C4: relative error of a sample.  With a zero reference `w0` the relative error is 0
when the target value `w1` is zero too and 1 otherwise; with a nonzero reference it is
`abs_err / |w0|` for `abs_err = w1 - w0`, and so has the sign of `abs_err`.  In
particular the relative error of target 0 against reference 0 is 0, and of target 5
against reference 0 is 1. -/
theorem rel_err_cases (fmt : Fmt) :
    (∀ (F : Type) (A : Arith F) (w1 w0 : F),
        (sample_errors fmt A w1 w0).abs_err = A.host_sub w1 w0
        ∧ (A.is0 w0 = true → A.is0 w1 = true → (sample_errors fmt A w1 w0).rel_err = A.ofInt 0)
        ∧ (A.is0 w0 = true → A.is0 w1 = false → (sample_errors fmt A w1 w0).rel_err = A.ofInt 1)
        ∧ (A.is0 w0 = false → (sample_errors fmt A w1 w0).rel_err
            = A.host_div (sample_errors fmt A w1 w0).abs_err (A.host_fabs w0)))
    ∧ (∀ (h : Host Nat) (w1 w0 : Nat), (w0 = 0 ∨ w0 = M_SIGN fmt) →
        ((w1 = 0 ∨ w1 = M_SIGN fmt) →
          (sample_errors fmt (bitsArith fmt h) w1 w0).rel_err = ff_of_int fmt 0)
        ∧ (w1 < 2 ^ FBITS fmt → ¬ (w1 = 0 ∨ w1 = M_SIGN fmt) →
          (sample_errors fmt (bitsArith fmt h) w1 w0).rel_err = ff_of_int fmt 1))
    ∧ toRat fmt (ff_of_int fmt 0) = 0 ∧ toRat fmt (ff_of_int fmt 1) = 1
    ∧ (∀ x y : ℝ, y ≠ 0 →
        (sample_errors fmt exactArith x y).abs_err = x - y
        ∧ (sample_errors fmt exactArith x y).rel_err = (x - y) / |y|
        ∧ SignType.sign (sample_errors fmt exactArith x y).rel_err
            = SignType.sign (sample_errors fmt exactArith x y).abs_err)
    ∧ (∀ x : ℝ, (sample_errors fmt exactArith x 0).rel_err = if x = 0 then 0 else 1)
    ∧ (sample_errors fmt exactArith 0 0).rel_err = 0
    ∧ (sample_errors fmt exactArith 5 0).rel_err = 1
    ∧ (∀ h : Host Nat,
        (sample_errors fmt (bitsArith fmt h) (ff_of_int fmt 0) (ff_of_int fmt 0)).rel_err
          = ff_of_int fmt 0
        ∧ (sample_errors fmt (bitsArith fmt h) (ff_of_int fmt 5) (ff_of_int fmt 0)).rel_err
          = ff_of_int fmt 1) := by
  refine ⟨?_, ?_, toRat_ff_of_int_zero fmt, toRat_ff_of_int_one fmt, ?_, ?_, ?_, ?_, ?_⟩
  · intro F A w1 w0
    refine ⟨rfl, ?_, ?_, ?_⟩
    · intro h0 h1; simp [sample_errors, h0, h1]
    · intro h0 h1; simp [sample_errors, h0, h1]
    · intro h0; simp [sample_errors, h0]
  · intro h w1 w0 hw0
    have h0 : is0 fmt w0 = true := is0_of_zero_pattern fmt w0 hw0
    constructor
    · intro hw1
      have h1 : is0 fmt w1 = true := is0_of_zero_pattern fmt w1 hw1
      simp [sample_errors, bitsArith, h0, h1]
    · intro hlt hw1
      have h1 : is0 fmt w1 = false := by
        have := (is0_eq_true_iff fmt w1 hlt).not.mpr hw1
        simpa using this
      simp [sample_errors, bitsArith, h0, h1]
  · intro x y hy
    have hrel : (sample_errors fmt exactArith x y).rel_err = (x - y) / |y| := by
      rw [rel_err_exact, if_neg hy]
    refine ⟨rfl, hrel, ?_⟩
    rw [hrel]
    have : (sample_errors fmt exactArith x y).abs_err = x - y := rfl
    rw [this, div_eq_mul_inv, sign_mul, sign_pos (inv_pos.mpr (abs_pos.mpr hy)), mul_one]
  · intro x; rw [rel_err_exact, if_pos rfl]
  · rw [rel_err_exact]; simp
  · rw [rel_err_exact]; simp
  · intro h
    constructor
    · have h0 : is0 fmt (ff_of_int fmt 0) = true := by cases fmt <;> decide
      simp [sample_errors, bitsArith, h0]
    · have h0 : is0 fmt (ff_of_int fmt 0) = true := by cases fmt <;> decide
      have h5 : is0 fmt (ff_of_int fmt 5) = false := by cases fmt <;> decide
      simp [sample_errors, bitsArith, h0, h5]

/-- C5: `bitacc (err)` is exactly `-MANT_BITS` when `err` is a zero of either sign, that
is -23 in the 32-bit and -52 in the 64-bit format; for every nonzero `err` it is
`1 + log2 |err|`, which is not clamped to `-MANT_BITS`. -/
theorem bitacc_cases (fmt : Fmt) :
    (∀ (F : Type) (A : Arith F) (err : F),
        (A.is0 err = true → bitacc fmt A err = A.ofInt (-(MANT_BITS fmt : Int)))
        ∧ (A.is0 err = false →
            bitacc fmt A err = A.host_add (A.ofInt 1) (A.host_log2 (A.host_fabs err))))
    ∧ (∀ (h : Host Nat) (err : Nat), (err = 0 ∨ err = M_SIGN fmt) →
        bitacc fmt (bitsArith fmt h) err = ff_of_int fmt (-(MANT_BITS fmt : Int)))
    ∧ toRat fmt (ff_of_int fmt (-(MANT_BITS fmt : Int))) = -(MANT_BITS fmt : ℚ)
    ∧ MANT_BITS .f32 = 23 ∧ MANT_BITS .f64 = 52
    ∧ bitacc fmt exactArith 0 = -(MANT_BITS fmt : ℝ)
    ∧ (∀ err : ℝ, err ≠ 0 → bitacc fmt exactArith err = 1 + Real.logb 2 |err|)
    ∧ bitacc fmt exactArith (((2 : ℝ) ^ (MANT_BITS fmt + 2))⁻¹) = -(MANT_BITS fmt : ℝ) - 1 := by
  refine ⟨?_, ?_, toRat_ff_of_int_neg_mant fmt, by decide, by decide, bitacc_exact_zero fmt,
    bitacc_exact_ne fmt, ?_⟩
  · intro F A err
    constructor
    · intro h; simp [bitacc, h]
    · intro h; simp [bitacc, h]
  · intro h err herr
    have h0 : is0 fmt err = true := is0_of_zero_pattern fmt err herr
    simp [bitacc, bitsArith, h0]
  · have hpos : (0 : ℝ) < ((2 : ℝ) ^ (MANT_BITS fmt + 2))⁻¹ := by positivity
    rw [bitacc_exact_ne fmt _ (ne_of_gt hpos), abs_of_pos hpos, logb_two_inv_pow]
    push_cast; ring

/-- C6: the best attainable accuracy figure is `-MANT_BITS`.  For finite patterns `w1`
(target) and `w0` (reference) and errors evaluated in exact arithmetic, the accuracy in
bits is at least `-MANT_BITS`; for different values and a nonzero reference the relative
error is at least `2 ^ -(MANT_BITS + 1)` in magnitude; the bound is attained by
`w1 = w0`, and by a power of two `w0` (exponent field at least 2) with the pattern just
below it as `w1`. -/
theorem bitacc_best_value (fmt : Fmt) (w1 w0 : Nat) (_h1 : isnum fmt w1 = true)
    (_h0 : isnum fmt w0 = true) :
    -(MANT_BITS fmt : ℝ)
        ≤ (sample_errors fmt exactArith (toRat fmt w1 : ℝ) (toRat fmt w0 : ℝ)).bit_err
    ∧ (toRat fmt w1 ≠ toRat fmt w0 → toRat fmt w0 ≠ 0 →
        ((2 : ℚ) ^ (MANT_BITS fmt + 1))⁻¹ ≤ |toRat fmt w1 - toRat fmt w0| / |toRat fmt w0|)
    ∧ (sample_errors fmt exactArith (toRat fmt w0 : ℝ) (toRat fmt w0 : ℝ)).bit_err
        = -(MANT_BITS fmt : ℝ)
    ∧ (mantField fmt w0 = 0 → 2 ≤ expoField fmt w0 →
        (sample_errors fmt exactArith (toRat fmt (w0 - 1) : ℝ) (toRat fmt w0 : ℝ)).bit_err
          = -(MANT_BITS fmt : ℝ)) := by
  refine ⟨?_, ?_, ?_, ?_⟩
  · rw [bit_err_eq]
    exact bitacc_exact_ge fmt _ (rel_err_exact_bound fmt w1 w0)
  · intro hne hy
    have hg := toRat_gap fmt w1 w0 hne
    rw [le_div_iff₀ (abs_pos.mpr hy), inv_mul_le_iff₀ (by positivity)]
    exact hg
  · rw [bit_err_eq, rel_err_exact]
    have : (if (toRat fmt w0 : ℝ) = 0 then (if (toRat fmt w0 : ℝ) = 0 then (0 : ℝ) else 1)
        else ((toRat fmt w0 : ℝ) - toRat fmt w0) / |(toRat fmt w0 : ℝ)|) = 0 := by
      split <;> simp_all
    rw [this, bitacc_exact_zero]
  · intro hm he
    rw [bit_err_eq]
    exact bitacc_exact_eq fmt _ (rel_err_exact_pred fmt w0 hm he)

theorem bitacc_best_value_witness :
    isnum .f32 0x3f7fffff = true ∧ isnum .f32 0x3f800000 = true
    ∧ -(MANT_BITS .f32 : ℝ)
        ≤ (sample_errors .f32 exactArith (toRat .f32 0x3f7fffff : ℝ)
            (toRat .f32 0x3f800000 : ℝ)).bit_err :=
  ⟨by decide, by decide, (bitacc_best_value .f32 0x3f7fffff 0x3f800000 (by decide) (by decide)).1⟩

/-! ## Extremum update -/

theorem marker_text_carries : ∀ c1 c2 c3 c4 c5 : Bool,
    (([' ', '!', 'a', '<'] <:+: marker_text c1 c2 c3 c4 c5) ↔ c1 = true)
    ∧ (([' ', '!', 'a', '>'] <:+: marker_text c1 c2 c3 c4 c5) ↔ c2 = true)
    ∧ (([' ', '!', 'r', '<'] <:+: marker_text c1 c2 c3 c4 c5) ↔ c3 = true)
    ∧ (([' ', '!', 'r', '>'] <:+: marker_text c1 c2 c3 c4 c5) ↔ c4 = true)
    ∧ (([' ', '!', 't', '>'] <:+: marker_text c1 c2 c3 c4 c5) ↔ c5 = true) := by
  decide

theorem update_extrema_eq (fmt : Fmt) (g : Globals) (abs_err rel_err : Nat) :
    update_extrema fmt g abs_err rel_err =
      ({ abs_mi := if ff_lt fmt abs_err g.abs_mi then abs_err else g.abs_mi,
         abs_ma := if ff_lt fmt g.abs_ma abs_err then abs_err else g.abs_ma,
         rel_mi := if ff_lt fmt rel_err g.rel_mi then rel_err else g.rel_mi,
         rel_ma := if ff_lt fmt g.rel_ma rel_err then rel_err else g.rel_ma,
         cyc_ma := if g.ticks > g.cyc_ma then g.ticks else g.cyc_ma,
         ticks := g.ticks },
       marker_text (ff_lt fmt abs_err g.abs_mi) (ff_lt fmt g.abs_ma abs_err)
         (ff_lt fmt rel_err g.rel_mi) (ff_lt fmt g.rel_ma rel_err)
         (decide (g.ticks > g.cyc_ma))) := by
  by_cases h1 : ff_lt fmt abs_err g.abs_mi = true <;>
    by_cases h2 : ff_lt fmt g.abs_ma abs_err = true <;>
    by_cases h3 : ff_lt fmt rel_err g.rel_mi = true <;>
    by_cases h4 : ff_lt fmt g.rel_ma rel_err = true <;>
    by_cases h5 : g.ticks > g.cyc_ma <;>
    simp [update_extrema, marker_text, h1, h2, h3, h4, h5]

/-- C8: extremum update step.  For the globals `g` before the step and the errors of the
sample, each marker is written exactly when its strict comparison holds (`abs_err <
abs_mi`, `abs_err > abs_ma`, `rel_err < rel_mi`, `rel_err > rel_ma`, `ticks > cyc_ma`),
each stored extremum is replaced by the sample's value exactly when its marker is written
and is unchanged otherwise, and all five markers can be written for one sample. -/
theorem update_extrema_step (fmt : Fmt) (g : Globals) (abs_err rel_err : Nat) :
    (([' ', '!', 'a', '<'] <:+: (update_extrema fmt g abs_err rel_err).2)
        ↔ ff_lt fmt abs_err g.abs_mi = true)
    ∧ (([' ', '!', 'a', '>'] <:+: (update_extrema fmt g abs_err rel_err).2)
        ↔ ff_lt fmt g.abs_ma abs_err = true)
    ∧ (([' ', '!', 'r', '<'] <:+: (update_extrema fmt g abs_err rel_err).2)
        ↔ ff_lt fmt rel_err g.rel_mi = true)
    ∧ (([' ', '!', 'r', '>'] <:+: (update_extrema fmt g abs_err rel_err).2)
        ↔ ff_lt fmt g.rel_ma rel_err = true)
    ∧ (([' ', '!', 't', '>'] <:+: (update_extrema fmt g abs_err rel_err).2)
        ↔ g.ticks > g.cyc_ma)
    ∧ (update_extrema fmt g abs_err rel_err).1.abs_mi
        = (if ff_lt fmt abs_err g.abs_mi then abs_err else g.abs_mi)
    ∧ (update_extrema fmt g abs_err rel_err).1.abs_ma
        = (if ff_lt fmt g.abs_ma abs_err then abs_err else g.abs_ma)
    ∧ (update_extrema fmt g abs_err rel_err).1.rel_mi
        = (if ff_lt fmt rel_err g.rel_mi then rel_err else g.rel_mi)
    ∧ (update_extrema fmt g abs_err rel_err).1.rel_ma
        = (if ff_lt fmt g.rel_ma rel_err then rel_err else g.rel_ma)
    ∧ (update_extrema fmt g abs_err rel_err).1.cyc_ma
        = (if g.ticks > g.cyc_ma then g.ticks else g.cyc_ma)
    ∧ (update_extrema fmt g abs_err rel_err).1.ticks = g.ticks
    ∧ (update_extrema fmt { init_globals fmt 0 with ticks := 1 } 0 0).2
        = [' ', '!', 'a', '<', ' ', '!', 'a', '>', ' ', '!', 'r', '<', ' ', '!', 'r', '>',
            ' ', '!', 't', '>'] := by
  have hinf := marker_text_carries (ff_lt fmt abs_err g.abs_mi) (ff_lt fmt g.abs_ma abs_err)
    (ff_lt fmt rel_err g.rel_mi) (ff_lt fmt g.rel_ma rel_err) (decide (g.ticks > g.cyc_ma))
  rw [update_extrema_eq]
  simp only [decide_eq_true_eq] at hinf
  refine ⟨hinf.1, hinf.2.1, hinf.2.2.1, hinf.2.2.2.1, hinf.2.2.2.2, rfl, rfl, rfl, rfl, rfl,
    rfl, ?_⟩
  cases fmt <;> decide


theorem ff_lt_of_not_nan (fmt : Fmt) (a b : Nat) (ha : isnan fmt a = false)
    (hb : isnan fmt b = false) : ff_lt fmt a b = decide (ordKey fmt a < ordKey fmt b) := by
  simp [ff_lt, ha, hb]

theorem isnan_P_INF (fmt : Fmt) : isnan fmt (P_INF fmt) = false := by cases fmt <;> decide

theorem isnan_neg_P_INF (fmt : Fmt) : isnan fmt (ff_neg fmt (P_INF fmt)) = false := by
  cases fmt <;> decide

theorem lt_foldl_min_iff (x init : Int) (l : List Int) :
    x < l.foldl min init ↔ x < init ∧ ∀ y ∈ l, x < y := by
  induction l generalizing init with
  | nil => simp
  | cons a l ih =>
    rw [List.foldl_cons, ih]
    simp only [lt_min_iff, List.mem_cons, forall_eq_or_imp]
    tauto

theorem foldl_max_lt_iff (x init : Int) (l : List Int) :
    l.foldl max init < x ↔ init < x ∧ ∀ y ∈ l, y < x := by
  induction l generalizing init with
  | nil => simp
  | cons a l ih =>
    rw [List.foldl_cons, ih]
    simp only [max_lt_iff, List.mem_cons, forall_eq_or_imp]
    tauto

theorem foldl_min_le_init (init : Int) (l : List Int) : l.foldl min init ≤ init := by
  induction l generalizing init with
  | nil => simp
  | cons a l ih => rw [List.foldl_cons]; exact le_trans (ih _) (min_le_left _ _)

theorem init_le_foldl_max (init : Int) (l : List Int) : init ≤ l.foldl max init := by
  induction l generalizing init with
  | nil => simp
  | cons a l ih => rw [List.foldl_cons]; exact le_trans (le_max_left _ _) (ih _)

/-- Invariant of the extremum updates: the four stored extrema are not NaN and their
keys are the running minimum resp. maximum of the keys seen. -/
theorem track_keys (fmt : Fmt) (ss : List Sample) (g : Globals)
    (hs : ∀ s ∈ ss, isnan fmt s.abs_err = false ∧ isnan fmt s.rel_err = false)
    (hg : isnan fmt g.abs_mi = false ∧ isnan fmt g.abs_ma = false
      ∧ isnan fmt g.rel_mi = false ∧ isnan fmt g.rel_ma = false) :
    (isnan fmt (track fmt g ss).abs_mi = false ∧ isnan fmt (track fmt g ss).abs_ma = false
      ∧ isnan fmt (track fmt g ss).rel_mi = false ∧ isnan fmt (track fmt g ss).rel_ma = false)
    ∧ ordKey fmt (track fmt g ss).abs_mi
        = (ss.map (fun s => ordKey fmt s.abs_err)).foldl min (ordKey fmt g.abs_mi)
    ∧ ordKey fmt (track fmt g ss).abs_ma
        = (ss.map (fun s => ordKey fmt s.abs_err)).foldl max (ordKey fmt g.abs_ma)
    ∧ ordKey fmt (track fmt g ss).rel_mi
        = (ss.map (fun s => ordKey fmt s.rel_err)).foldl min (ordKey fmt g.rel_mi)
    ∧ ordKey fmt (track fmt g ss).rel_ma
        = (ss.map (fun s => ordKey fmt s.rel_err)).foldl max (ordKey fmt g.rel_ma) := by
  induction ss generalizing g with
  | nil => exact ⟨hg, rfl, rfl, rfl, rfl⟩
  | cons s ss ih =>
    obtain ⟨ha, hr⟩ := hs s (List.mem_cons_self _ _)
    obtain ⟨g1, g2, g3, g4⟩ := hg
    have hs' : ∀ t ∈ ss, isnan fmt t.abs_err = false ∧ isnan fmt t.rel_err = false :=
      fun t ht => hs t (List.mem_cons_of_mem _ ht)
    have hstep := update_extrema_eq fmt { g with ticks := s.ticks } s.abs_err s.rel_err
    simp only [ff_lt_of_not_nan fmt _ _ ha g1, ff_lt_of_not_nan fmt _ _ g2 ha,
      ff_lt_of_not_nan fmt _ _ hr g3, ff_lt_of_not_nan fmt _ _ g4 hr,
      decide_eq_true_eq] at hstep
    have hfst := congrArg Prod.fst hstep
    simp only at hfst
    have key := ih (update_extrema fmt { g with ticks := s.ticks } s.abs_err s.rel_err).1 hs' (by
      rw [hfst]
      refine ⟨?_, ?_, ?_, ?_⟩ <;> simp only <;> split <;> assumption)
    rw [track]
    simp only [List.map_cons, List.foldl_cons]
    refine ⟨key.1, ?_, ?_, ?_, ?_⟩
    · rw [key.2.1, hfst]; congr 1
      simp only
      split <;> omega
    · rw [key.2.2.1, hfst]; congr 1
      simp only
      split <;> omega
    · rw [key.2.2.2.1, hfst]; congr 1
      simp only
      split <;> omega
    · rw [key.2.2.2.2, hfst]; congr 1
      simp only
      split <;> omega

theorem track_append (fmt : Fmt) (g : Globals) (ss : List Sample) (s : Sample) :
    track fmt g (ss ++ [s])
      = (update_extrema fmt { track fmt g ss with ticks := s.ticks } s.abs_err s.rel_err).1 := by
  induction ss generalizing g with
  | nil => rfl
  | cons t ss ih => simp only [List.cons_append, track]; exact ih _

theorem track_congr (fmt : Fmt) (g g' : Globals) (ss : List Sample)
    (h : extrema g = extrema g') : extrema (track fmt g ss) = extrema (track fmt g' ss) := by
  cases ss with
  | nil => exact h
  | cons s ss =>
    have : ({ g with ticks := s.ticks } : Globals) = { g' with ticks := s.ticks } := by
      simp only [extrema, Prod.mk.injEq] at h
      obtain ⟨h1, h2, h3, h4, h5⟩ := h
      cases g; cases g'; simp_all
    rw [track, track, this]

/-- The extrema left by the loop of `main` are those of the extremum updates of the
emitted samples. -/
theorem sweep_from_extrema (fmt : Fmt) (T : Harness) (count ix : Nat) (g : Globals) :
    extrema (sweep_from fmt T count ix g).1 = extrema (track fmt g (emitted fmt T count ix)) := by
  induction count generalizing ix g with
  | zero => rfl
  | succ n ih =>
    rw [sweep_from, emitted]
    simp only
    rw [ih]
    by_cases hnum : isnum fmt
        (eval_FUN fmt T (val_linear (bitsArith fmt T.host) T.X0 T.X1 (T.XVALS % 65536) ix)).1 = true
    · rw [if_pos hnum, track]
      simp [sample_step, hnum]
    · rw [if_neg hnum]
      apply track_congr
      simp [sample_step, hnum, extrema]

theorem stripped_of_fields (fmt : Fmt) (x : Nat) :
    x % 2 ^ (FBITS fmt - 1) = expoField fmt x * 2 ^ MANT_BITS fmt + mantField fmt x := by
  rw [expoField_eq, mantField_eq]
  cases fmt <;> simp only [FBITS, MANT_BITS, EXPO_BITS] <;> omega

theorem toRat_eq_units (fmt : Fmt) (f : Nat) :
    toRat fmt f = (sgnUnits fmt f : ℚ) * (2 : ℚ) ^ ((1 : ℤ) - EXPO_BIAS fmt - MANT_BITS fmt) := by
  unfold toRat sgnUnits
  rw [magRat_eq_units]
  split <;> push_cast <;> ring

theorem units_upper (M e m : Nat) (hm : m < 2 ^ M) :
    (if e = 0 then m else (2 ^ M + m) * 2 ^ (e - 1)) < 2 ^ M * 2 ^ e := by
  split
  · rename_i h; subst h; simpa using hm
  · rename_i h
    obtain ⟨k, rfl⟩ : ∃ k, e = k + 1 := ⟨e - 1, by omega⟩
    simp only [Nat.add_sub_cancel]
    have hp : 0 < 2 ^ k := by positivity
    rw [pow_succ]
    nlinarith

theorem units_lower (M e m : Nat) (he : 1 ≤ e) :
    2 ^ M * 2 ^ (e - 1) ≤ (if e = 0 then m else (2 ^ M + m) * 2 ^ (e - 1)) := by
  rw [if_neg (by omega)]
  exact Nat.mul_le_mul_right _ (Nat.le_add_right _ _)

/-- The magnitude in units increases strictly with the sign-stripped pattern. -/
theorem units_strict_mono (M e1 m1 e2 m2 : Nat) (h1 : m1 < 2 ^ M) (h2 : m2 < 2 ^ M)
    (h : e1 * 2 ^ M + m1 < e2 * 2 ^ M + m2) :
    (if e1 = 0 then m1 else (2 ^ M + m1) * 2 ^ (e1 - 1))
      < (if e2 = 0 then m2 else (2 ^ M + m2) * 2 ^ (e2 - 1)) := by
  have hle : e1 ≤ e2 := by
    by_contra hc
    have : e2 + 1 ≤ e1 := by omega
    have := Nat.mul_le_mul_right (2 ^ M) this
    nlinarith
  rcases Nat.eq_or_lt_of_le hle with heq | hlt
  · subst heq
    have hm : m1 < m2 := by omega
    split
    · exact hm
    · exact Nat.mul_lt_mul_of_pos_right (by omega) (by positivity)
  · calc (if e1 = 0 then m1 else (2 ^ M + m1) * 2 ^ (e1 - 1))
        < 2 ^ M * 2 ^ e1 := units_upper M e1 m1 h1
      _ ≤ 2 ^ M * 2 ^ (e2 - 1) :=
          Nat.mul_le_mul_left _ (Nat.pow_le_pow_right (by omega) (by omega))
      _ ≤ _ := units_lower M e2 m2 (by omega)

theorem magUnits_lt_iff (fmt : Fmt) (a b : Nat) :
    a % 2 ^ (FBITS fmt - 1) < b % 2 ^ (FBITS fmt - 1) ↔ magUnits fmt a < magUnits fmt b := by
  have ha := mantField_lt fmt a
  have hb := mantField_lt fmt b
  have mono : ∀ x y : Nat, x % 2 ^ (FBITS fmt - 1) < y % 2 ^ (FBITS fmt - 1) →
      magUnits fmt x < magUnits fmt y := by
    intro x y hxy
    rw [stripped_of_fields, stripped_of_fields] at hxy
    exact units_strict_mono _ _ _ _ _ (mantField_lt fmt x) (mantField_lt fmt y) hxy
  constructor
  · exact mono a b
  · intro h
    by_contra hc
    rcases Nat.eq_or_lt_of_le (Nat.le_of_not_lt hc) with heq | hlt
    · have : magUnits fmt a = magUnits fmt b := by
        unfold magUnits
        have h1 := stripped_of_fields fmt a
        have h2 := stripped_of_fields fmt b
        have he : expoField fmt a = expoField fmt b := by
          have e1 : expoField fmt a = a % 2 ^ (FBITS fmt - 1) / 2 ^ MANT_BITS fmt := by
            rw [h1, Nat.add_comm, Nat.add_mul_div_right _ _ (by positivity),
              Nat.div_eq_of_lt ha, Nat.zero_add]
          have e2 : expoField fmt b = b % 2 ^ (FBITS fmt - 1) / 2 ^ MANT_BITS fmt := by
            rw [h2, Nat.add_comm, Nat.add_mul_div_right _ _ (by positivity),
              Nat.div_eq_of_lt hb, Nat.zero_add]
          rw [e1, e2, heq]
        have hm : mantField fmt a = mantField fmt b := by
          rw [he] at h1; omega
        rw [he, hm]
      omega
    · have := mono b a hlt
      omega

theorem magUnits_eq_zero_iff (fmt : Fmt) (a : Nat) :
    magUnits fmt a = 0 ↔ a % 2 ^ (FBITS fmt - 1) = 0 := by
  have h := magUnits_lt_iff fmt 0 a
  have h0 : magUnits fmt 0 = 0 := by cases fmt <;> decide
  have h00 : (0 : Nat) % 2 ^ (FBITS fmt - 1) = 0 := Nat.zero_mod _
  rw [h0, h00] at h
  omega

/-- The integer key orders the patterns as their values are ordered. -/
theorem ordKey_lt_iff (fmt : Fmt) (a b : Nat) :
    ordKey fmt a < ordKey fmt b ↔ toRat fmt a < toRat fmt b := by
  have hu := unit_pos fmt
  have hval : toRat fmt a < toRat fmt b ↔ sgnUnits fmt a < sgnUnits fmt b := by
    rw [toRat_eq_units, toRat_eq_units, mul_lt_mul_right hu]
    exact Int.cast_lt
  rw [hval]
  have hab := magUnits_lt_iff fmt a b
  have hba := magUnits_lt_iff fmt b a
  have za := magUnits_eq_zero_iff fmt a
  have zb := magUnits_eq_zero_iff fmt b
  have sa : a &&& unot fmt (M_SIGN fmt) = a % 2 ^ (FBITS fmt - 1) := strip_sign_eq_mod fmt a
  have sb : b &&& unot fmt (M_SIGN fmt) = b % 2 ^ (FBITS fmt - 1) := strip_sign_eq_mod fmt b
  unfold ordKey sgnUnits
  rw [sa, sb]
  cases signBit fmt a <;> cases signBit fmt b <;> simp only [Bool.false_eq_true, if_false, if_true]
    <;> omega

/-- C9 (as amended): running-extremum invariant.  Starting from `abs_mi = rel_mi =
+infinity` and `abs_ma = rel_ma = -infinity`, after any sequence of emitted samples whose
errors are not NaN, `abs_mi` is the minimum and `abs_ma` the maximum of the absolute
errors emitted so far (likewise `rel_mi`, `rel_ma`), in the order of the values; a
further sample never increases `abs_mi`, `rel_mi` and never decreases `abs_ma`,
`rel_ma`; and its line carries `!a<` exactly when its absolute error is below +infinity
and below all previous absolute errors, `!r>` exactly when its relative error is above
-infinity and above all previous relative errors.  The order is the one of the integer
keys, which is the order of the values (an infinity ranking beyond every finite value);
the extrema of `main` are those of the updates by its emitted samples. -/
theorem running_extrema (fmt : Fmt) (ss : List Sample) (s : Sample)
    (hs : ∀ t ∈ ss, isnan fmt t.abs_err = false ∧ isnan fmt t.rel_err = false)
    (hn : isnan fmt s.abs_err = false ∧ isnan fmt s.rel_err = false) :
    (ordKey fmt (track fmt (init_globals fmt 0) ss).abs_mi
        = (ss.map (fun t => ordKey fmt t.abs_err)).foldl min (ordKey fmt (P_INF fmt))
      ∧ ordKey fmt (track fmt (init_globals fmt 0) ss).abs_ma
        = (ss.map (fun t => ordKey fmt t.abs_err)).foldl max (ordKey fmt (ff_neg fmt (P_INF fmt)))
      ∧ ordKey fmt (track fmt (init_globals fmt 0) ss).rel_mi
        = (ss.map (fun t => ordKey fmt t.rel_err)).foldl min (ordKey fmt (P_INF fmt))
      ∧ ordKey fmt (track fmt (init_globals fmt 0) ss).rel_ma
        = (ss.map (fun t => ordKey fmt t.rel_err)).foldl max (ordKey fmt (ff_neg fmt (P_INF fmt))))
    ∧ (ordKey fmt (track fmt (init_globals fmt 0) (ss ++ [s])).abs_mi
          ≤ ordKey fmt (track fmt (init_globals fmt 0) ss).abs_mi
      ∧ ordKey fmt (track fmt (init_globals fmt 0) ss).abs_ma
          ≤ ordKey fmt (track fmt (init_globals fmt 0) (ss ++ [s])).abs_ma
      ∧ ordKey fmt (track fmt (init_globals fmt 0) (ss ++ [s])).rel_mi
          ≤ ordKey fmt (track fmt (init_globals fmt 0) ss).rel_mi
      ∧ ordKey fmt (track fmt (init_globals fmt 0) ss).rel_ma
          ≤ ordKey fmt (track fmt (init_globals fmt 0) (ss ++ [s])).rel_ma)
    ∧ (([' ', '!', 'a', '<'] <:+: markers_after fmt ss s)
        ↔ ordKey fmt s.abs_err < ordKey fmt (P_INF fmt)
          ∧ ∀ t ∈ ss, ordKey fmt s.abs_err < ordKey fmt t.abs_err)
    ∧ (([' ', '!', 'r', '>'] <:+: markers_after fmt ss s)
        ↔ ordKey fmt (ff_neg fmt (P_INF fmt)) < ordKey fmt s.rel_err
          ∧ ∀ t ∈ ss, ordKey fmt t.rel_err < ordKey fmt s.rel_err)
    ∧ (∀ a b, ordKey fmt a < ordKey fmt b ↔ toRat fmt a < toRat fmt b)
    ∧ (∀ T : Harness, extrema (main fmt T).1
        = extrema (track fmt (init_globals fmt 0) (emitted fmt T (T.XVALS % 65536) 0))) := by
  have hg : isnan fmt (init_globals fmt 0).abs_mi = false
      ∧ isnan fmt (init_globals fmt 0).abs_ma = false
      ∧ isnan fmt (init_globals fmt 0).rel_mi = false
      ∧ isnan fmt (init_globals fmt 0).rel_ma = false :=
    ⟨isnan_P_INF fmt, isnan_neg_P_INF fmt, isnan_P_INF fmt, isnan_neg_P_INF fmt⟩
  have inv := track_keys fmt ss (init_globals fmt 0) hs hg
  have hs1 : ∀ t ∈ ss ++ [s], isnan fmt t.abs_err = false ∧ isnan fmt t.rel_err = false := by
    intro t ht
    rcases List.mem_append.mp ht with h | h
    · exact hs t h
    · rw [List.mem_singleton] at h; rw [h]; exact hn
  have inv1 := track_keys fmt (ss ++ [s]) (init_globals fmt 0) hs1 hg
  have e1 : (init_globals fmt 0).abs_mi = P_INF fmt := rfl
  have e2 : (init_globals fmt 0).abs_ma = ff_neg fmt (P_INF fmt) := rfl
  have e3 : (init_globals fmt 0).rel_mi = P_INF fmt := rfl
  have e4 : (init_globals fmt 0).rel_ma = ff_neg fmt (P_INF fmt) := rfl
  rw [e1, e2, e3, e4] at inv inv1
  refine ⟨inv.2, ?_, ?_, ?_, ordKey_lt_iff fmt, fun T => sweep_from_extrema fmt T _ 0 _⟩
  · rw [inv1.2.1, inv1.2.2.1, inv1.2.2.2.1, inv1.2.2.2.2, inv.2.1, inv.2.2.1, inv.2.2.2.1,
      inv.2.2.2.2]
    simp only [List.map_append, List.map_cons, List.map_nil, List.foldl_append, List.foldl_cons,
      List.foldl_nil]
    exact ⟨min_le_left _ _, le_max_left _ _, min_le_left _ _, le_max_left _ _⟩
  · rw [markers_after, update_extrema_eq]
    rw [(marker_text_carries _ _ _ _ _).1]
    simp only
    rw [ff_lt_of_not_nan fmt _ _ hn.1 inv.1.1, decide_eq_true_eq, inv.2.1, lt_foldl_min_iff]
    simp
  · rw [markers_after, update_extrema_eq]
    rw [(marker_text_carries _ _ _ _ _).2.2.2.1]
    simp only
    rw [ff_lt_of_not_nan fmt _ _ inv.1.2.2.2 hn.2, decide_eq_true_eq, inv.2.2.2.2,
      foldl_max_lt_iff]
    simp

theorem running_extrema_witness :
    (∀ t ∈ [({ abs_err := 0x3f800000, rel_err := 0x3f800000, ticks := 7 } : Sample)],
        isnan .f32 t.abs_err = false ∧ isnan .f32 t.rel_err = false)
    ∧ (isnan .f32 0 = false ∧ isnan .f32 0 = false)
    ∧ (([' ', '!', 'a', '<'] <:+: markers_after .f32
          [{ abs_err := 0x3f800000, rel_err := 0x3f800000, ticks := 7 }]
          { abs_err := 0, rel_err := 0, ticks := 9 })
        ↔ ordKey .f32 0 < ordKey .f32 (P_INF .f32)
          ∧ ∀ t ∈ [({ abs_err := 0x3f800000, rel_err := 0x3f800000, ticks := 7 } : Sample)],
              ordKey .f32 0 < ordKey .f32 t.abs_err) :=
  ⟨by decide, by decide,
    (running_extrema .f32 [{ abs_err := 0x3f800000, rel_err := 0x3f800000, ticks := 7 }]
      { abs_err := 0, rel_err := 0, ticks := 9 } (by decide) (by decide)).2.2.1⟩

set_option maxRecDepth 100000 in
set_option exponentiation.threshold 4096 in
/-- C9 as stated fails for a first emitted sample whose absolute error is +infinity: no
absolute error precedes it, so it is smaller than all previous ones, yet its line does
not carry `!a<`, because `+infinity < abs_mi = +infinity` is false.  Such a sample
arises with the reference host from the finite target result `FLT_MAX` against the
reference result `-FLT_MAX`. -/
theorem running_extrema_first_infinite :
    isnan .f32 (P_INF .f32) = false
    ∧ (∀ t ∈ ([] : List Sample), ordKey .f32 (P_INF .f32) < ordKey .f32 t.abs_err)
    ∧ ¬ ([' ', '!', 'a', '<'] <:+: markers_after .f32 []
          { abs_err := P_INF .f32, rel_err := P_INF .f32, ticks := 95 })
    ∧ finite_at .f32
        (demoHarness .f32 (fun _ => 0x7f7fffff) (fun _ => 0xff7fffff) 2 0 0x3f800000) 0 = true
    ∧ sample_at .f32
        (demoHarness .f32 (fun _ => 0x7f7fffff) (fun _ => 0xff7fffff) 2 0 0x3f800000) 0
        = { abs_err := P_INF .f32, rel_err := P_INF .f32, ticks := 95 } := by
  decide

/-! ## Laws of the reference host -/

theorem isnum_not_nan (fmt : Fmt) (a : Nat) (h : isnum fmt a = true) : isnan fmt a = false := by
  simp only [isnum, isnan, decide_eq_true_eq, decide_eq_false_iff_not] at h ⊢
  omega

theorem isnum_not_inf (fmt : Fmt) (a : Nat) (h : isnum fmt a = true) : isinf fmt a = false := by
  simp only [isnum, isinf, decide_eq_true_eq, decide_eq_false_iff_not] at h ⊢
  omega

theorem sgnUnits_eq_of_toRat_eq (fmt : Fmt) (a b : Nat) (h : toRat fmt a = toRat fmt b) :
    sgnUnits fmt a = sgnUnits fmt b := by
  rw [toRat_eq_units, toRat_eq_units] at h
  have hu := unit_pos fmt
  have := mul_right_cancel₀ (ne_of_gt hu) h
  exact_mod_cast this

theorem is0_withSign_zero (fmt : Fmt) (neg : Bool) : is0 fmt (withSign fmt neg 0) = true := by
  cases fmt <;> cases neg <;> decide

/-- Reference host: the difference of two finite operands of equal value is a zero. -/
theorem ieee_sub_self (fmt : Fmt) (a b : Nat) (ha : isnum fmt a = true)
    (hb : isnum fmt b = true) (h : toRat fmt a = toRat fmt b) :
    is0 fmt (ieee_sub fmt a b) = true := by
  have hz : sgnUnits fmt a + (if (!signBit fmt b) = true then - (magUnits fmt b : Int)
      else (magUnits fmt b : Int)) = 0 := by
    rw [sgnUnits_eq_of_toRat_eq fmt a b h]
    unfold sgnUnits
    cases signBit fmt b <;> simp
  unfold ieee_sub ieee_addsub
  simp only [isnum_not_nan fmt a ha, isnum_not_nan fmt b hb, isnum_not_inf fmt a ha,
    isnum_not_inf fmt b hb, Bool.or_self, Bool.false_eq_true, if_false, hz, if_true]
  split
  · cases fmt <;> decide
  · cases fmt <;> decide

/-- Reference host: a zero divided by a finite nonzero operand is a zero. -/
theorem ieee_div_zero (fmt : Fmt) (z y : Nat) (hz : is0 fmt z = true)
    (hy : isnum fmt y = true) (hy0 : is0 fmt y = false) :
    is0 fmt (ieee_div fmt z y) = true := by
  have hzn : isnum fmt z = true := by
    rw [is0_eq] at hz; rw [isnum_eq]
    simp only [beq_iff_eq] at hz
    rw [hz]; cases fmt <;> decide
  unfold ieee_div
  simp only [isnum_not_nan fmt z hzn, isnum_not_nan fmt y hy, isnum_not_inf fmt z hzn,
    isnum_not_inf fmt y hy, Bool.or_self, Bool.false_eq_true, if_false, hy0, hz, if_true]
  exact is0_withSign_zero fmt _

/-- Reference host: `fabs` keeps finiteness and zero-ness. -/
theorem ieee_fabs_class (fmt : Fmt) (y : Nat) :
    isnum fmt (ieee_fabs fmt y) = isnum fmt y ∧ is0 fmt (ieee_fabs fmt y) = is0 fmt y := by
  have h : ieee_fabs fmt y % 2 ^ (FBITS fmt - 1) = y % 2 ^ (FBITS fmt - 1) := by
    rw [ieee_fabs, strip_sign_eq_mod, Nat.mod_mod]
  rw [isnum_eq, isnum_eq, is0_eq, is0_eq, h]
  exact ⟨rfl, rfl⟩

/-! ## Samples in agreement and skipped samples -/

/-- C7: exact agreement gives the best score.  For a host whose subtraction of two finite
operands of equal value is a zero, whose division of a zero by a finite nonzero operand
is a zero, and whose `fabs` keeps finiteness and zero-ness (all true of IEEE-754
arithmetic), every sample whose target result `w1` is finite and equal in value to the
reference result `w0` has absolute error 0, relative error 0 and accuracy figure exactly
`-MANT_BITS`; in exact arithmetic the three figures are `0`, `0` and `-MANT_BITS`. -/
theorem exact_agreement (fmt : Fmt) (h : Host Nat) (w1 w0 : Nat)
    (hsub : ∀ a b, isnum fmt a = true → isnum fmt b = true → toRat fmt a = toRat fmt b →
      is0 fmt (h.host_sub a b) = true)
    (hdiv : ∀ z y, is0 fmt z = true → isnum fmt y = true → is0 fmt y = false →
      is0 fmt (h.host_div z y) = true)
    (hfabs : ∀ y, isnum fmt (h.host_fabs y) = isnum fmt y
      ∧ is0 fmt (h.host_fabs y) = is0 fmt y)
    (h1 : isnum fmt w1 = true) (h0 : isnum fmt w0 = true)
    (heq : toRat fmt w1 = toRat fmt w0) :
    is0 fmt (sample_errors fmt (bitsArith fmt h) w1 w0).abs_err = true
    ∧ is0 fmt (sample_errors fmt (bitsArith fmt h) w1 w0).rel_err = true
    ∧ (sample_errors fmt (bitsArith fmt h) w1 w0).bit_err
        = ff_of_int fmt (-(MANT_BITS fmt : Int))
    ∧ toRat fmt (ff_of_int fmt (-(MANT_BITS fmt : Int))) = -(MANT_BITS fmt : ℚ)
    ∧ (∀ x : ℝ, (sample_errors fmt exactArith x x).abs_err = 0
        ∧ (sample_errors fmt exactArith x x).rel_err = 0
        ∧ (sample_errors fmt exactArith x x).bit_err = -(MANT_BITS fmt : ℝ)) := by
  have habs : is0 fmt (h.host_sub w1 w0) = true := hsub w1 w0 h1 h0 heq
  have hrel : is0 fmt (sample_errors fmt (bitsArith fmt h) w1 w0).rel_err = true := by
    by_cases hz : is0 fmt w0 = true
    · have hz1 : is0 fmt w1 = true := by
        rw [is0_eq, beq_iff_eq] at hz ⊢
        rw [← toRat_eq_zero_iff] at hz ⊢
        rw [heq]; exact hz
      have : (sample_errors fmt (bitsArith fmt h) w1 w0).rel_err = ff_of_int fmt 0 := by
        simp [sample_errors, bitsArith, hz, hz1]
      rw [this]; cases fmt <;> decide
    · have hz' : is0 fmt w0 = false := by simpa using hz
      have : (sample_errors fmt (bitsArith fmt h) w1 w0).rel_err
          = h.host_div (h.host_sub w1 w0) (h.host_fabs w0) := by
        simp [sample_errors, bitsArith, hz']
      rw [this]
      exact hdiv _ _ habs (by rw [(hfabs w0).1]; exact h0) (by rw [(hfabs w0).2]; exact hz')
  refine ⟨habs, hrel, ?_, toRat_ff_of_int_neg_mant fmt, ?_⟩
  · rw [bit_err_eq]
    have hb : (bitsArith fmt h).is0 (sample_errors fmt (bitsArith fmt h) w1 w0).rel_err = true :=
      hrel
    simp only [bitacc, hb, if_true]
    rfl
  · intro x
    have hr : (sample_errors fmt exactArith x x).rel_err = 0 := by
      rw [rel_err_exact]; split <;> simp
    refine ⟨?_, hr, ?_⟩
    · simp [sample_errors, exactArith]
    · rw [bit_err_eq, hr, bitacc_exact_zero]

theorem exact_agreement_witness :
    (∀ a b, isnum .f32 a = true → isnum .f32 b = true → toRat .f32 a = toRat .f32 b →
        is0 .f32 ((ieeeHost .f32).host_sub a b) = true)
    ∧ isnum .f32 0x3f800000 = true
    ∧ toRat .f32 0x3f800000 = toRat .f32 0x3f800000
    ∧ (sample_errors .f32 (bitsArith .f32 (ieeeHost .f32)) 0x3f800000 0x3f800000).bit_err
        = ff_of_int .f32 (-(MANT_BITS .f32 : Int)) :=
  ⟨ieee_sub_self .f32, by decide, rfl,
    (exact_agreement .f32 (ieeeHost .f32) 0x3f800000 0x3f800000 (ieee_sub_self .f32)
      (ieee_div_zero .f32) (ieee_fabs_class .f32) (by decide) (by decide) rfl).2.2.1⟩

/-- C10: non-finite skip.  When the target result of a sample is +infinity, -infinity or
a NaN, the iteration writes nothing at all (no `::`, no field, no marker, no newline)
and leaves `abs_mi`, `abs_ma`, `rel_mi`, `rel_ma` and `cyc_ma` as they were. -/
theorem sample_step_skip (fmt : Fmt) (T : Harness) (g : Globals) (ix : Nat)
    (hw : T.FUN (val_linear (bitsArith fmt T.host) T.X0 T.X1 (T.XVALS % 65536) ix) = P_INF fmt
      ∨ T.FUN (val_linear (bitsArith fmt T.host) T.X0 T.X1 (T.XVALS % 65536) ix)
          = M_SIGN fmt + P_INF fmt
      ∨ isnan fmt (T.FUN (val_linear (bitsArith fmt T.host) T.X0 T.X1 (T.XVALS % 65536) ix))
          = true) :
    (sample_step fmt T g ix).2 = []
    ∧ (sample_step fmt T g ix).1.abs_mi = g.abs_mi
    ∧ (sample_step fmt T g ix).1.abs_ma = g.abs_ma
    ∧ (sample_step fmt T g ix).1.rel_mi = g.rel_mi
    ∧ (sample_step fmt T g ix).1.rel_ma = g.rel_ma
    ∧ (sample_step fmt T g ix).1.cyc_ma = g.cyc_ma := by
  have hnum : isnum fmt
      (T.FUN (val_linear (bitsArith fmt T.host) T.X0 T.X1 (T.XVALS % 65536) ix)) = false := by
    rcases hw with h | h | h
    · rw [h]; cases fmt <;> decide
    · rw [h]; cases fmt <;> decide
    · simp only [isnum, isnan, decide_eq_true_eq, decide_eq_false_iff_not] at h ⊢
      omega
  simp [sample_step, eval_FUN, hnum]

theorem sample_step_skip_witness :
    ((demoHarness .f32 (fun _ => P_INF .f32) (fun x => x) 3 0 0x3f800000).FUN
        (val_linear (bitsArith .f32 (demoHarness .f32 (fun _ => P_INF .f32) (fun x => x) 3 0
          0x3f800000).host) 0 0x3f800000 3 1) = P_INF .f32)
    ∧ (sample_step .f32 (demoHarness .f32 (fun _ => P_INF .f32) (fun x => x) 3 0 0x3f800000)
        (init_globals .f32 0) 1).2 = [] :=
  ⟨rfl, (sample_step_skip .f32 (demoHarness .f32 (fun _ => P_INF .f32) (fun x => x) 3 0
      0x3f800000) (init_globals .f32 0) 1 (Or.inl rfl)).1⟩

/-! ## Rendering of the hex-float text -/

theorem fixedDigits_length (b w n : Nat) : (fixedDigits b w n).length = w := by
  induction w generalizing n with
  | zero => rfl
  | succ w ih => simp [fixedDigits, ih]

theorem fixedDigits_zero (b w : Nat) : fixedDigits b w 0 = List.replicate w 0 := by
  induction w with
  | zero => rfl
  | succ w ih =>
    simp only [fixedDigits, Nat.zero_div, Nat.zero_mod, ih]
    rw [List.replicate_succ']

theorem pad_digitsBE (b : Nat) (hb : 1 < b) (w fuel n : Nat) (hf : w ≤ fuel) (hn : n < b ^ w) :
    List.replicate (w - (digitsBE b fuel n).length) 0 ++ digitsBE b fuel n
      = fixedDigits b w n := by
  induction w generalizing fuel n with
  | zero =>
    have : n = 0 := by simpa using hn
    subst this
    cases fuel <;> simp [digitsBE, fixedDigits]
  | succ w ih =>
    cases fuel with
    | zero => omega
    | succ fuel =>
      by_cases h0 : n = 0
      · subst h0
        simp [digitsBE, fixedDigits_zero]
      · have hdiv : n / b < b ^ w := by
          rw [Nat.div_lt_iff_lt_mul (by omega)]; rw [pow_succ] at hn; exact hn
        have hlen := digitsBE_length b hb fuel (n / b) w hdiv
        rw [digitsBE, if_neg h0, fixedDigits, ← ih fuel (n / b) (by omega) hdiv]
        simp only [List.length_append, List.length_singleton, List.append_assoc]
        congr 2
        omega

/-- Fixed-width form of `%0<w>x` when the value fits `w` digits. -/
theorem printf_0x_fixed (w n : Nat) (hw : 0 < w) (hw64 : w ≤ 64) (hn : n < 16 ^ w) :
    printf_0x w n = (fixedDigits 16 w n).map digitChar := by
  rw [printf_0x_eq_map]
  congr 1
  unfold printDigits
  split
  · rename_i h0
    subst h0
    rw [fixedDigits_zero]
    obtain ⟨k, rfl⟩ : ∃ k, w = k + 1 := ⟨w - 1, by omega⟩
    simp [List.replicate_succ']
  · exact pad_digitsBE 16 (by omega) w 64 n hw64 hn

/-- C14: NaN rendering.  For every input whose sign-stripped pattern is above `P_INF`
(every NaN, whatever sign bit and payload) `print_float_bin` writes exactly `nan`, with
no sign character in front. -/
theorem print_float_bin_nan (fmt : Fmt) (x : Nat)
    (h : P_INF fmt < u_from_f fmt x &&& unot fmt (M_SIGN fmt)) :
    print_float_bin fmt x = ['n', 'a', 'n'] := by
  unfold print_float_bin
  simp only [gt_iff_lt, h, if_true]
  rfl

theorem print_float_bin_nan_witness :
    P_INF .f32 < u_from_f .f32 0xffc00001 &&& unot .f32 (M_SIGN .f32)
    ∧ print_float_bin .f32 0xffc00001 = ['n', 'a', 'n'] :=
  ⟨by decide, print_float_bin_nan .f32 0xffc00001 (by decide)⟩

theorem print_float_bin_inf (fmt : Fmt) (x : Nat) (h : x % 2 ^ (FBITS fmt - 1) = P_INF fmt) :
    print_float_bin fmt x = [if signBit fmt x then '-' else ' ', 'i', 'n', 'f'] := by
  have hp : ¬ (P_INF fmt < P_INF fmt) := lt_irrefl _
  have h0 : P_INF fmt ≠ 0 := by cases fmt <;> decide
  unfold print_float_bin
  simp only [strip_sign_eq_mod, h, gt_iff_lt, hp, if_false, h0, if_true]
  rfl

/-- C15: sign prefix and zero / infinity rendering.  For every non-NaN input the text
starts with exactly one sign character, a space for a clear and `-` for a set sign bit;
what follows is exactly `0.0` when the sign-stripped pattern is 0 and exactly `inf` when
it is `P_INF`, and otherwise the hexadecimal form starting with `0x`. -/
theorem print_float_bin_sign_zero_inf (fmt : Fmt) (x : Nat)
    (h : ¬ P_INF fmt < u_from_f fmt x &&& unot fmt (M_SIGN fmt)) :
    (∃ rest, print_float_bin fmt x = (if signBit fmt x then '-' else ' ') :: rest
      ∧ (rest = ['0', '.', '0'] ∨ rest = ['i', 'n', 'f'] ∨ ∃ d tl, rest = '0' :: 'x' :: d :: '.' :: tl))
    ∧ (u_from_f fmt x &&& unot fmt (M_SIGN fmt) = 0 →
        print_float_bin fmt x = [if signBit fmt x then '-' else ' ', '0', '.', '0'])
    ∧ (u_from_f fmt x &&& unot fmt (M_SIGN fmt) = P_INF fmt →
        print_float_bin fmt x = [if signBit fmt x then '-' else ' ', 'i', 'n', 'f'])
    ∧ print_float_bin fmt 0 = [' ', '0', '.', '0']
    ∧ print_float_bin fmt (M_SIGN fmt) = ['-', '0', '.', '0']
    ∧ print_float_bin fmt (P_INF fmt) = [' ', 'i', 'n', 'f']
    ∧ print_float_bin fmt (M_SIGN fmt + P_INF fmt) = ['-', 'i', 'n', 'f'] := by
  rw [strip_sign_eq_mod] at h ⊢
  refine ⟨?_, print_float_bin_zero fmt x, print_float_bin_inf fmt x, ?_, ?_, ?_, ?_⟩
  · by_cases h0 : x % 2 ^ (FBITS fmt - 1) = 0
    · exact ⟨_, print_float_bin_zero fmt x h0, Or.inl rfl⟩
    · by_cases hi : x % 2 ^ (FBITS fmt - 1) = P_INF fmt
      · exact ⟨_, print_float_bin_inf fmt x hi, Or.inr (Or.inl rfl)⟩
      · have hfin : x % 2 ^ (FBITS fmt - 1) < P_INF fmt := by omega
        refine ⟨_, print_float_bin_finite fmt x h0 hfin, Or.inr (Or.inr
          ⟨if expoField fmt x ≠ 0 then '1' else '0',
            printf_0x (hexWidth fmt) (mantField fmt x * mantScale fmt) ++ 'p' :: printf_d
              (if expoField fmt x ≠ 0 then (expoField fmt x : Int) - EXPO_BIAS fmt
                else 1 - (EXPO_BIAS fmt : Int)), ?_⟩)⟩
        simp only [List.cons_append, List.nil_append]
  · cases fmt <;> decide
  · cases fmt <;> decide
  · cases fmt <;> decide
  · cases fmt <;> decide

theorem print_float_bin_sign_zero_inf_witness :
    (¬ P_INF .f64 < u_from_f .f64 0x8000000000000000 &&& unot .f64 (M_SIGN .f64))
    ∧ (u_from_f .f64 0x8000000000000000 &&& unot .f64 (M_SIGN .f64) = 0 →
        print_float_bin .f64 0x8000000000000000
          = [if signBit .f64 0x8000000000000000 then '-' else ' ', '0', '.', '0']) :=
  ⟨by decide, (print_float_bin_sign_zero_inf .f64 0x8000000000000000 (by decide)).2.1⟩

theorem fixedDigits_lt (b : Nat) (hb : 0 < b) (w n : Nat) : ∀ d ∈ fixedDigits b w n, d < b := by
  induction w generalizing n with
  | zero => intro d hd; simp [fixedDigits] at hd
  | succ w ih =>
    intro d hd
    rw [fixedDigits] at hd
    rcases List.mem_append.mp hd with h | h
    · exact ih _ d h
    · rw [List.mem_singleton] at h; rw [h]; exact Nat.mod_lt _ hb

theorem digitChar_mem (d : Nat) (hd : d < 16) : digitChar d ∈ digitTable := by
  interval_cases d <;> decide

theorem mant_fits (fmt : Fmt) (x : Nat) :
    mantField fmt x * mantScale fmt < 16 ^ hexWidth fmt := by
  have hmlt := mantField_lt fmt x
  revert hmlt
  cases fmt
  · simp only [MANT_BITS, FBITS, EXPO_BITS, mantScale, hexWidth]; omega
  · simp only [MANT_BITS, FBITS, EXPO_BITS, mantScale, hexWidth]; omega

theorem hexWidth_pos (fmt : Fmt) : 0 < hexWidth fmt ∧ hexWidth fmt ≤ 64 := by
  cases fmt <;> simp [hexWidth]

/-- C16: normal-number rendering.  For a biased exponent `e` in `1 .. 2^EXPO_BITS - 2` the
text is the sign character, `0x1.`, the mantissa as zero-padded lower-case hexadecimal of
fixed width (6 digits holding the mantissa shifted left by one bit in the 32-bit format,
whose value fits 24 bits and whose last digit is even; 13 digits holding the mantissa in
the 64-bit format), then `p` and the signed decimal exponent `e - EXPO_BIAS`, which lies
in `[-126, 127]` resp. `[-1022, 1023]`. -/
theorem print_float_bin_normal (fmt : Fmt) (x : Nat) (he1 : 1 ≤ expoField fmt x)
    (he2 : expoField fmt x ≤ 2 ^ EXPO_BITS fmt - 2) :
    print_float_bin fmt x
      = (if signBit fmt x then '-' else ' ') ::
          (['0', 'x', '1', '.']
            ++ (fixedDigits 16 (hexWidth fmt) (mantField fmt x * mantScale fmt)).map digitChar
            ++ 'p' :: printf_d ((expoField fmt x : Int) - EXPO_BIAS fmt))
    ∧ ((fixedDigits 16 (hexWidth fmt) (mantField fmt x * mantScale fmt)).map digitChar).length
        = hexWidth fmt
    ∧ (∀ c ∈ (fixedDigits 16 (hexWidth fmt) (mantField fmt x * mantScale fmt)).map digitChar,
        c ∈ digitTable)
    ∧ hexWidth .f32 = 6 ∧ mantScale .f32 = 2 ∧ hexWidth .f64 = 13 ∧ mantScale .f64 = 1
    ∧ mantField fmt x * mantScale fmt < 2 ^ (4 * hexWidth fmt)
    ∧ (fmt = .f32 → ∃ ds d, fixedDigits 16 6 (mantField fmt x * 2) = ds ++ [d] ∧ d % 2 = 0)
    ∧ (1 : Int) - EXPO_BIAS fmt ≤ (expoField fmt x : Int) - EXPO_BIAS fmt
    ∧ (expoField fmt x : Int) - EXPO_BIAS fmt ≤ EXPO_BIAS fmt
    ∧ EXPO_BIAS .f32 = 127 ∧ EXPO_BIAS .f64 = 1023 := by
  have hstr := stripped_of_fields fmt x
  have hmlt := mantField_lt fmt x
  have h0 : x % 2 ^ (FBITS fmt - 1) ≠ 0 := by
    rw [hstr]
    have : 0 < expoField fmt x * 2 ^ MANT_BITS fmt := Nat.mul_pos (by omega) (by positivity)
    omega
  have hfin : x % 2 ^ (FBITS fmt - 1) < P_INF fmt := by
    rw [stripped_lt_iff]
    have : 2 ≤ 2 ^ EXPO_BITS fmt := by cases fmt <;> simp [EXPO_BITS]
    omega
  have he : expoField fmt x ≠ 0 := by omega
  have hfit := mant_fits fmt x
  obtain ⟨hw, hw64⟩ := hexWidth_pos fmt
  refine ⟨?_, ?_, ?_, rfl, rfl, rfl, rfl, ?_, ?_, ?_, ?_, by decide, by decide⟩
  · rw [print_float_bin_finite fmt x h0 hfin, printf_0x_fixed _ _ hw hw64 hfit]
    simp only [he, ne_eq, not_false_eq_true, if_true]
  · rw [List.length_map, fixedDigits_length]
  · intro c hc
    rw [List.mem_map] at hc
    obtain ⟨d, hd, rfl⟩ := hc
    exact digitChar_mem d (fixedDigits_lt 16 (by omega) _ _ d hd)
  · rw [pow_mul]; exact hfit
  · intro _
    refine ⟨fixedDigits 16 5 (mantField fmt x * 2 / 16), mantField fmt x * 2 % 16, rfl, ?_⟩
    omega
  · have : (1 : Int) ≤ expoField fmt x := by exact_mod_cast he1
    omega
  · have h2 : (expoField fmt x : Int) ≤ ((2 ^ EXPO_BITS fmt - 2 : Nat) : Int) := by
      exact_mod_cast he2
    revert h2
    cases fmt <;> simp [EXPO_BITS, EXPO_BIAS]

theorem print_float_bin_normal_witness :
    1 ≤ expoField .f32 0xbf800001 ∧ expoField .f32 0xbf800001 ≤ 2 ^ EXPO_BITS .f32 - 2
    ∧ print_float_bin .f32 0xbf800001
      = (if signBit .f32 0xbf800001 then '-' else ' ') ::
          (['0', 'x', '1', '.']
            ++ (fixedDigits 16 (hexWidth .f32) (mantField .f32 0xbf800001 * mantScale .f32)).map
                digitChar
            ++ 'p' :: printf_d ((expoField .f32 0xbf800001 : Int) - EXPO_BIAS .f32)) :=
  ⟨by decide, by decide, (print_float_bin_normal .f32 0xbf800001 (by decide) (by decide)).1⟩

/-- C17: subnormal rendering.  For a zero biased exponent and a nonzero mantissa the text
is the sign character, `0x0.`, the same fixed-width mantissa digits as for a normal
number, then `p` and the fixed exponent `1 - EXPO_BIAS`, written `p-126` in the 32-bit
and `p-1022` in the 64-bit format. -/
theorem print_float_bin_subnormal (fmt : Fmt) (x : Nat) (he : expoField fmt x = 0)
    (hm : mantField fmt x ≠ 0) :
    print_float_bin fmt x
      = (if signBit fmt x then '-' else ' ') ::
          (['0', 'x', '0', '.']
            ++ (fixedDigits 16 (hexWidth fmt) (mantField fmt x * mantScale fmt)).map digitChar
            ++ 'p' :: printf_d (1 - (EXPO_BIAS fmt : Int)))
    ∧ 'p' :: printf_d (1 - (EXPO_BIAS .f32 : Int)) = ['p', '-', '1', '2', '6']
    ∧ 'p' :: printf_d (1 - (EXPO_BIAS .f64 : Int)) = ['p', '-', '1', '0', '2', '2'] := by
  have hstr := stripped_of_fields fmt x
  have h0 : x % 2 ^ (FBITS fmt - 1) ≠ 0 := by rw [hstr, he]; omega
  have hfin : x % 2 ^ (FBITS fmt - 1) < P_INF fmt := by
    rw [stripped_lt_iff, he]
    cases fmt <;> simp [EXPO_BITS]
  have hfit := mant_fits fmt x
  obtain ⟨hw, hw64⟩ := hexWidth_pos fmt
  refine ⟨?_, by decide, by decide⟩
  rw [print_float_bin_finite fmt x h0 hfin, printf_0x_fixed _ _ hw hw64 hfit]
  simp only [he, ne_eq, not_true_eq_false, if_false]

theorem print_float_bin_subnormal_witness :
    expoField .f64 0x8000000000000001 = 0 ∧ mantField .f64 0x8000000000000001 ≠ 0
    ∧ print_float_bin .f64 0x8000000000000001
      = (if signBit .f64 0x8000000000000001 then '-' else ' ') ::
          (['0', 'x', '0', '.']
            ++ (fixedDigits 16 (hexWidth .f64)
                (mantField .f64 0x8000000000000001 * mantScale .f64)).map digitChar
            ++ 'p' :: printf_d (1 - (EXPO_BIAS .f64 : Int))) :=
  ⟨by decide, by decide, (print_float_bin_subnormal .f64 0x8000000000000001 (by decide)
    (by decide)).1⟩

/-- C20: exponent extraction loses no bits.  For every sign-stripped pattern `v < P_INF`
the two-step computation of `print_float_bin` (shift right by `MANT_BITS & ~7`, convert
to `int16_t`, shift right by `MANT_BITS & 7`) gives a non-negative value equal to the
biased exponent field `(v >> MANT_BITS) & (2^EXPO_BITS - 1)`; the shifts are 16 then 7
for the 32-bit and 48 then 4 for the 64-bit format; and `v & mant_mask` with
`mant_mask = ~(M_SIGN | P_INF)` is the low `MANT_BITS` bits of `v`. -/
theorem expo_extraction (fmt : Fmt) (v : Nat) (hv : v < P_INF fmt) :
    toInt16 ((v >>> (MANT_BITS fmt &&& notSeven) : Nat) : Int) >>> (MANT_BITS fmt &&& 7)
      = (((v >>> MANT_BITS fmt) &&& (2 ^ EXPO_BITS fmt - 1) : Nat) : Int)
    ∧ 0 ≤ toInt16 ((v >>> (MANT_BITS fmt &&& notSeven) : Nat) : Int) >>> (MANT_BITS fmt &&& 7)
    ∧ toInt16 ((v >>> (MANT_BITS fmt &&& notSeven) : Nat) : Int)
        = ((v >>> (MANT_BITS fmt &&& notSeven) : Nat) : Int)
    ∧ (v >>> MANT_BITS fmt) &&& (2 ^ EXPO_BITS fmt - 1) = expoField fmt v
    ∧ MANT_BITS .f32 &&& notSeven = 16 ∧ MANT_BITS .f32 &&& 7 = 7
    ∧ MANT_BITS .f64 &&& notSeven = 48 ∧ MANT_BITS .f64 &&& 7 = 4
    ∧ v &&& unot fmt (M_SIGN fmt ||| P_INF fmt) = v % 2 ^ MANT_BITS fmt
    ∧ v % 2 ^ MANT_BITS fmt = mantField fmt v := by
  have hv' : v < 2 ^ (FBITS fmt - 1) := by
    revert hv; cases fmt <;> simp [P_INF, FBITS, MANT_BITS, EXPO_BITS] <;> omega
  have hx := expo_extract fmt v hv'
  have hfield : ((v >>> MANT_BITS fmt) &&& (2 ^ EXPO_BITS fmt - 1)) = v / 2 ^ MANT_BITS fmt := by
    have := expoField_eq fmt v
    unfold expoField at this
    rw [this]
    apply Nat.mod_eq_of_lt
    revert hv'
    cases fmt <;> simp only [FBITS, MANT_BITS, EXPO_BITS] <;> omega
  refine ⟨?_, ?_, ?_, rfl, by decide, by decide, by decide, by decide, ?_, ?_⟩
  · rw [hx, hfield]
  · rw [hx]; exact Int.ofNat_nonneg _
  · apply toInt16_of_small
    · have : (0 : Int) ≤ ((v >>> (MANT_BITS fmt &&& notSeven) : Nat) : Int) :=
        Int.ofNat_nonneg _
      omega
    · have : v >>> (MANT_BITS fmt &&& notSeven) < 32768 := by
        rw [Nat.shiftRight_eq_div_pow]
        revert hv'
        cases fmt
        · have h1 : MANT_BITS .f32 &&& notSeven = 16 := by decide
          rw [h1]; simp only [FBITS]; intro hv'; norm_num at hv' ⊢; omega
        · have h1 : MANT_BITS .f64 &&& notSeven = 48 := by decide
          rw [h1]; simp only [FBITS]; intro hv'; norm_num at hv' ⊢; omega
      exact_mod_cast this
  · rw [mant_mask_eq, Nat.and_pow_two_sub_one_eq_mod]
  · rw [mantField_eq]

theorem expo_extraction_witness :
    (0x7f7fffff : Nat) < P_INF .f32
    ∧ toInt16 (((0x7f7fffff : Nat) >>> (MANT_BITS .f32 &&& notSeven) : Nat) : Int)
          >>> (MANT_BITS .f32 &&& 7)
        = ((((0x7f7fffff : Nat) >>> MANT_BITS .f32) &&& (2 ^ EXPO_BITS .f32 - 1) : Nat) : Int) :=
  ⟨by decide, (expo_extraction .f32 0x7f7fffff (by decide)).1⟩

/-! ## Sample points -/

theorem val_linear_exact (a b : ℝ) (n i : Nat) (hn1 : 1 ≤ n) (hn : n < 65536) :
    val_linear exactArith a b n i = a + (i : ℝ) * ((b - a) / ((n : ℝ) - 1)) := by
  have hm : (n + 65535) % 65536 = n - 1 := by omega
  simp only [val_linear, exactArith, hm]
  push_cast [Nat.cast_sub hn1]
  ring

/-- C13: sample points are linearly spaced inside the domain.  In exact arithmetic, for
`2 ≤ n` (a 16-bit count) and `0 ≤ i ≤ n - 1`, `val_linear (a, b, n, i)` is
`a + i * (b - a) / (n - 1)`; it is `a` at `i = 0` and `b` at `i = n - 1`, it is monotone
in `i`, and for `a ≤ b` it lies in `[a, b]`. -/
theorem val_linear_spacing (a b : ℝ) (n i : Nat) (hn2 : 2 ≤ n) (hn : n < 65536)
    (hi : i ≤ n - 1) :
    val_linear exactArith a b n i = a + (i : ℝ) * (b - a) / ((n : ℝ) - 1)
    ∧ val_linear exactArith a b n 0 = a
    ∧ val_linear exactArith a b n (n - 1) = b
    ∧ (∀ j, i ≤ j → a ≤ b → val_linear exactArith a b n i ≤ val_linear exactArith a b n j)
    ∧ (∀ j, i ≤ j → b ≤ a → val_linear exactArith a b n j ≤ val_linear exactArith a b n i)
    ∧ (a ≤ b → a ≤ val_linear exactArith a b n i ∧ val_linear exactArith a b n i ≤ b) := by
  have hn1 : 1 ≤ n := by omega
  have hpos : (0 : ℝ) < (n : ℝ) - 1 := by
    have : (2 : ℝ) ≤ n := by exact_mod_cast hn2
    linarith
  have hi' : (i : ℝ) ≤ (n : ℝ) - 1 := by
    have : ((i : ℕ) : ℝ) ≤ ((n - 1 : ℕ) : ℝ) := by exact_mod_cast hi
    rwa [Nat.cast_sub hn1, Nat.cast_one] at this
  have hi0 : (0 : ℝ) ≤ i := Nat.cast_nonneg i
  refine ⟨?_, ?_, ?_, ?_, ?_, ?_⟩
  · rw [val_linear_exact a b n i hn1 hn]; ring
  · rw [val_linear_exact a b n 0 hn1 hn]; simp
  · rw [val_linear_exact a b n (n - 1) hn1 hn, Nat.cast_sub hn1, Nat.cast_one]
    field_simp
  · intro j hij hab
    rw [val_linear_exact a b n i hn1 hn, val_linear_exact a b n j hn1 hn]
    have hij' : (i : ℝ) ≤ j := by exact_mod_cast hij
    have hd : 0 ≤ (b - a) / ((n : ℝ) - 1) := div_nonneg (by linarith) hpos.le
    nlinarith
  · intro j hij hba
    rw [val_linear_exact a b n i hn1 hn, val_linear_exact a b n j hn1 hn]
    have hij' : (i : ℝ) ≤ j := by exact_mod_cast hij
    have hd : (b - a) / ((n : ℝ) - 1) ≤ 0 := div_nonpos_of_nonpos_of_nonneg (by linarith) hpos.le
    nlinarith
  · intro hab
    rw [val_linear_exact a b n i hn1 hn]
    have hd : 0 ≤ (b - a) / ((n : ℝ) - 1) := div_nonneg (by linarith) hpos.le
    constructor
    · nlinarith
    · have hmul : ((n : ℝ) - 1) * ((b - a) / ((n : ℝ) - 1)) = b - a := by field_simp
      nlinarith

theorem val_linear_spacing_witness :
    2 ≤ 3 ∧ 3 < 65536 ∧ 1 ≤ 3 - 1
    ∧ val_linear exactArith 0 1 3 1 = 0 + ((1 : ℕ) : ℝ) * (1 - 0) / (((3 : ℕ) : ℝ) - 1) :=
  ⟨by decide, by decide, by decide,
    (val_linear_spacing 0 1 3 1 (by decide) (by decide) (by decide)).1⟩

/-! ## Which subtraction computes the absolute error -/

/-- C18 (as amended): the absolute error of a sample is `w1 - w0` computed with the
host's subtraction `host_sub`; this holds for every arithmetic, in particular in every
iteration of `main`, whatever the target-side `subf` does. -/
theorem abs_err_host_sub (fmt : Fmt) :
    (∀ (F : Type) (A : Arith F) (w1 w0 : F),
      (sample_errors fmt A w1 w0).abs_err = A.host_sub w1 w0)
    ∧ (∀ (T : Harness) (ix : Nat),
      (sample_at fmt T ix).abs_err
        = T.host.host_sub (T.FUN (point_at fmt T ix)) (T.host_val (point_at fmt T ix)))
    ∧ (∀ (x y : ℝ), (sample_errors fmt exactArith x y).abs_err = x - y) :=
  ⟨fun _ _ _ _ => rfl, fun _ _ => rfl, fun _ _ => rfl⟩

/-- C18 as stated fails: for the reference host and a target whose subtraction flushes
subnormal results to zero, the absolute error of `w1 = 0x00800001`, `w0 = 0x00800000` is
the host's difference `0x00000001`, not the target-side `subf (w1, w0) = 0`. -/
theorem abs_err_not_target_sub :
    (sample_errors .f32 (bitsArith .f32 (ieeeHost .f32)) 0x00800001 0x00800000).abs_err
        = 0x00000001
    ∧ subf (ftzTarget .f32) 0x00800001 0x00800000 = 0
    ∧ (sample_errors .f32 (bitsArith .f32 (ieeeHost .f32)) 0x00800001 0x00800000).abs_err
        ≠ subf (ftzTarget .f32) 0x00800001 0x00800000 := by
  decide

/-! ## The record stream of a sweep -/

theorem with_ticks_congr (g g' : Globals) (t : Nat) (h : extrema g = extrema g') :
    ({ g with ticks := t } : Globals) = { g' with ticks := t } := by
  simp only [extrema, Prod.mk.injEq] at h
  obtain ⟨h1, h2, h3, h4, h5⟩ := h
  cases g; cases g'; simp_all

theorem sample_step_finite (fmt : Fmt) (T : Harness) (g : Globals) (ix : Nat)
    (h : finite_at fmt T ix = true) :
    sample_step fmt T g ix
      = ((update_extrema fmt { g with ticks := (sample_at fmt T ix).ticks }
            (sample_at fmt T ix).abs_err (sample_at fmt T ix).rel_err).1,
          record_body fmt T ix
            ++ (update_extrema fmt { g with ticks := (sample_at fmt T ix).ticks }
                (sample_at fmt T ix).abs_err (sample_at fmt T ix).rel_err).2 ++ ['\n']) := by
  unfold finite_at point_at at h
  simp only [sample_step, h, Bool.not_true, Bool.false_eq_true, if_false, record_body, sample_at,
    point_at, List.append_assoc]
  rfl

theorem sample_step_not_finite (fmt : Fmt) (T : Harness) (g : Globals) (ix : Nat)
    (h : finite_at fmt T ix = false) :
    sample_step fmt T g ix
      = ({ g with ticks := (eval_FUN fmt T (point_at fmt T ix)).2 }, []) := by
  unfold finite_at point_at at h
  simp only [sample_step, h, Bool.not_false, if_true, point_at]

/-- The text written by the loop is the concatenation of its records. -/
theorem sweep_from_records (fmt : Fmt) (T : Harness) (count ix : Nat) (g : Globals)
    (prev : List Sample) (hg : extrema g = extrema (track fmt (init_globals fmt 0) prev)) :
    (sweep_from fmt T count ix g).2
      = ((records_from fmt T count ix prev).map Prod.snd).flatten := by
  induction count generalizing ix g prev with
  | zero => rfl
  | succ n ih =>
    rw [sweep_from, records_from]
    simp only
    by_cases hf : finite_at fmt T ix = true
    · rw [if_pos hf, sample_step_finite fmt T g ix hf]
      simp only [List.map_cons, List.flatten_cons]
      rw [with_ticks_congr g _ _ hg]
      rw [ih (ix + 1) _ (prev ++ [sample_at fmt T ix]) (by rw [track_append])]
      rfl
    · have hf' : finite_at fmt T ix = false := by simpa using hf
      rw [if_neg hf, sample_step_not_finite fmt T g ix hf']
      simp only [List.nil_append]
      exact ih (ix + 1) _ prev (by rw [← hg]; rfl)

theorem records_from_indices (fmt : Fmt) (T : Harness) (count ix : Nat) (prev : List Sample) :
    (records_from fmt T count ix prev).map Prod.fst
      = (List.range' ix count).filter (fun i => finite_at fmt T i) := by
  induction count generalizing ix prev with
  | zero => rfl
  | succ n ih =>
    rw [records_from, List.range'_succ, List.filter_cons]
    by_cases hf : finite_at fmt T ix = true
    · simp only [hf, if_true, List.map_cons, ih]
    · have hf' : finite_at fmt T ix = false := by simpa using hf
      simp only [hf', Bool.false_eq_true, if_false, ih]

theorem records_from_shape (fmt : Fmt) (T : Harness) (count ix : Nat) (prev : List Sample) :
    ∀ r ∈ records_from fmt T count ix prev,
      ∃ marks, r.2 = [':', ':', ' '] ++ (record_body fmt T r.1).drop 3 ++ marks ++ ['\n'] := by
  induction count generalizing ix prev with
  | zero => intro r hr; simp [records_from] at hr
  | succ n ih =>
    intro r hr
    rw [records_from] at hr
    by_cases hf : finite_at fmt T ix = true
    · rw [if_pos hf] at hr
      rcases List.mem_cons.mp hr with h | h
      · refine ⟨markers_after fmt prev (sample_at fmt T ix), ?_⟩
        rw [h]
        simp [record_body]
      · exact ih _ _ r h
    · rw [if_neg hf] at hr
      exact ih _ _ r hr

set_option maxRecDepth 100000 in
set_option exponentiation.threshold 4096 in
theorem demo_skip_indices :
    (List.range' 0 5).filter (fun i => finite_at .f32 (demoHarness .f32
      (fun x => if x = 0x3e800000 then P_INF .f32 else x) (fun x => x) 5 0 0x3f800000) i)
      = [0, 2, 3, 4] := by
  decide

/-- C11: the record stream is the order-preserving filter of the sweep.  The text written
by `main` for a sweep of `n` points is the concatenation of its records; the records
belong to exactly the indices `i` in `0 .. n-1` whose target result is finite, one record
each, in increasing order; each record starts with `:: ` and ends with a newline.  With
sample 2 of 5 infinite and the others finite there are exactly 4 records, for the
samples 1, 3, 4, 5 (indices 0, 2, 3, 4). -/
theorem record_stream (fmt : Fmt) (T : Harness) :
    (main fmt T).2 = ((records_from fmt T (T.XVALS % 65536) 0 []).map Prod.snd).flatten
    ∧ (records_from fmt T (T.XVALS % 65536) 0 []).map Prod.fst
        = (List.range (T.XVALS % 65536)).filter (fun i => finite_at fmt T i)
    ∧ ((records_from fmt T (T.XVALS % 65536) 0 []).map Prod.fst).Pairwise (· < ·)
    ∧ (∀ r ∈ records_from fmt T (T.XVALS % 65536) 0 [],
        ∃ marks, r.2 = [':', ':', ' '] ++ (record_body fmt T r.1).drop 3 ++ marks ++ ['\n'])
    ∧ (records_from .f32 (demoHarness .f32 (fun x => if x = 0x3e800000 then P_INF .f32 else x)
          (fun x => x) 5 0 0x3f800000) 5 0 []).map Prod.fst = [0, 2, 3, 4]
    ∧ (records_from .f32 (demoHarness .f32 (fun x => if x = 0x3e800000 then P_INF .f32 else x)
          (fun x => x) 5 0 0x3f800000) 5 0 []).length = 4 := by
  have hidx := records_from_indices fmt T (T.XVALS % 65536) 0 []
  rw [← List.range_eq_range'] at hidx
  have hex : (records_from .f32 (demoHarness .f32
      (fun x => if x = 0x3e800000 then P_INF .f32 else x) (fun x => x) 5 0 0x3f800000)
        5 0 []).map Prod.fst = [0, 2, 3, 4] := by
    rw [records_from_indices]; exact demo_skip_indices
  refine ⟨sweep_from_records fmt T _ 0 _ [] rfl, hidx, ?_, records_from_shape fmt T _ 0 [],
    hex, ?_⟩
  · rw [hidx]
    exact (List.pairwise_lt_range _).filter _
  · have := congrArg List.length hex
    simpa using this

/-! ## Sweeps with fewer than two points -/

theorem isnan_qNaN (fmt : Fmt) : isnan fmt (qNaN fmt) = true := by cases fmt <;> decide

theorem ff_of_int_zero (fmt : Fmt) : ff_of_int fmt 0 = 0 := rfl

/-- Reference host: a quotient by +0 is an infinity or a NaN. -/
theorem ieee_div_by_zero (fmt : Fmt) (a : Nat) :
    isnan fmt (ieee_div fmt a 0) = true ∨ isinf fmt (ieee_div fmt a 0) = true := by
  have hz : is0 fmt 0 = true := by cases fmt <;> decide
  have hn : isnan fmt 0 = false := by cases fmt <;> decide
  have hi : isinf fmt 0 = false := by cases fmt <;> decide
  have hinf : ∀ neg, isinf fmt (withSign fmt neg (P_INF fmt)) = true := by
    intro neg; cases fmt <;> cases neg <;> decide
  unfold ieee_div
  simp only [hn, hi, hz, Bool.or_false, Bool.false_eq_true, if_false, if_true]
  by_cases h1 : isnan fmt a = true
  · simp [h1, isnan_qNaN]
  · by_cases h2 : isinf fmt a = true
    · simp [h1, h2, hinf]
    · by_cases h3 : is0 fmt a = true
      · simp [h1, h2, h3, isnan_qNaN]
      · simp [h1, h2, h3, hinf]

/-- Reference host: zero times an infinity or a NaN is a NaN. -/
theorem ieee_zero_mul (fmt : Fmt) (r : Nat)
    (hr : isnan fmt r = true ∨ isinf fmt r = true) : isnan fmt (ieee_mul fmt 0 r) = true := by
  have hz : is0 fmt 0 = true := by cases fmt <;> decide
  have hn : isnan fmt 0 = false := by cases fmt <;> decide
  unfold ieee_mul
  rcases hr with h | h
  · simp [h, isnan_qNaN]
  · by_cases h1 : isnan fmt r = true
    · simp [h1, isnan_qNaN]
    · simp [h, h1, hn, hz, isnan_qNaN]

/-- Reference host: a sum with a NaN is a NaN. -/
theorem ieee_add_nan (fmt : Fmt) (a r : Nat) (hr : isnan fmt r = true) :
    isnan fmt (ieee_add fmt a r) = true := by
  unfold ieee_add ieee_addsub
  simp [hr, isnan_qNaN]

theorem sweep_from_one (fmt : Fmt) (T : Harness) (ix : Nat) (g : Globals) :
    sweep_from fmt T 1 ix g = sample_step fmt T g ix := by
  simp [sweep_from]

theorem main_one_point (fmt : Fmt) (T : Harness) (h : T.XVALS % 65536 = 1) :
    main fmt T = sample_step fmt T (init_globals fmt 0) 0 := by
  simp [main, h, sweep_from]

theorem sample_step_text_iff (fmt : Fmt) (T : Harness) (g : Globals) (ix : Nat) :
    (sample_step fmt T g ix).2 ≠ [] ↔ isnum fmt (T.FUN (point_at fmt T ix)) = true := by
  by_cases hf : finite_at fmt T ix = true
  · rw [sample_step_finite fmt T _ ix hf]
    have hf' : isnum fmt (T.FUN (point_at fmt T ix)) = true := hf
    simp [hf', record_body]
  · have hf' : finite_at fmt T ix = false := by simpa using hf
    rw [sample_step_not_finite fmt T _ ix hf']
    have hf'' : isnum fmt (T.FUN (point_at fmt T ix)) = false := hf'
    simp [hf'']

/-- C12 (as amended): a sweep with fewer than 2 points is not rejected.  With `XVALS = 0`
the loop runs no iteration: the extrema keep their initial values and nothing is
written.  With `XVALS = 1` the loop runs its one iteration: the sample point is
`a + 0 * ((b - a) / 0)`, computed with the divisor `n_vals - 1 = 0` (a NaN for the
reference host), the function is evaluated there, and a record is written exactly when
the target result is finite. -/
theorem sweep_too_short (fmt : Fmt) (T : Harness) :
    (T.XVALS % 65536 = 0 → main fmt T = (init_globals fmt 0, []))
    ∧ (T.XVALS % 65536 = 1 →
        main fmt T = sample_step fmt T (init_globals fmt 0) 0
        ∧ point_at fmt T 0
            = T.host.host_add T.X0 (T.host.host_mul (ff_of_int fmt 0)
                (T.host.host_div (T.host.host_sub T.X1 T.X0) (ff_of_int fmt 0)))
        ∧ ((main fmt T).2 ≠ [] ↔ isnum fmt (T.FUN (point_at fmt T 0)) = true))
    ∧ (∀ a b : Nat, isnan fmt (val_linear (bitsArith fmt (ieeeHost fmt)) a b 1 0) = true) := by
  refine ⟨?_, ?_, ?_⟩
  · intro h; simp [main, h, sweep_from]
  · intro h
    have hm := main_one_point fmt T h
    refine ⟨hm, ?_, ?_⟩
    · simp only [point_at, h, val_linear, bitsArith]
      rfl
    · rw [hm]; exact sample_step_text_iff fmt T _ 0
  · intro a b
    have hv : val_linear (bitsArith fmt (ieeeHost fmt)) a b 1 0
        = ieee_add fmt a (ieee_mul fmt 0 (ieee_div fmt (ieee_sub fmt b a) 0)) := rfl
    rw [hv]
    exact ieee_add_nan fmt _ _ (ieee_zero_mul fmt _ (ieee_div_by_zero fmt _))

set_option maxRecDepth 100000 in
set_option exponentiation.threshold 4096 in
/-- C12 as stated fails: with `XVALS = 1`, the reference host and a function under test
that returns 1.0 for every argument, `main` evaluates the function at the sample point
(a NaN) and writes a record. -/
theorem sweep_one_point_runs :
    (demoHarness .f32 (fun _ => 0x3f800000) (fun _ => 0x3f800000) 1 0 0x3f800000).XVALS = 1
    ∧ isnan .f32 (point_at .f32
        (demoHarness .f32 (fun _ => 0x3f800000) (fun _ => 0x3f800000) 1 0 0x3f800000) 0) = true
    ∧ finite_at .f32
        (demoHarness .f32 (fun _ => 0x3f800000) (fun _ => 0x3f800000) 1 0 0x3f800000) 0 = true
    ∧ (main .f32
        (demoHarness .f32 (fun _ => 0x3f800000) (fun _ => 0x3f800000) 1 0 0x3f800000)).2 ≠ [] := by
  refine ⟨rfl, by decide, by decide, ?_⟩
  rw [main_one_point .f32
    (demoHarness .f32 (fun _ => 0x3f800000) (fun _ => 0x3f800000) 1 0 0x3f800000) rfl]
  exact (sample_step_text_iff .f32 _ _ 0).mpr (by decide)

/-! ## Sweeps without error -/

/-- Errors of a sample whose finite target and reference results have the same value,
for a host with the three laws of IEEE-754 arithmetic used here. -/
theorem agreement_zero_errors (fmt : Fmt) (h : Host Nat) (w1 w0 : Nat)
    (hsub : ∀ a b, isnum fmt a = true → isnum fmt b = true → toRat fmt a = toRat fmt b →
      is0 fmt (h.host_sub a b) = true)
    (hdiv : ∀ z y, is0 fmt z = true → isnum fmt y = true → is0 fmt y = false →
      is0 fmt (h.host_div z y) = true)
    (hfabs : ∀ y, isnum fmt (h.host_fabs y) = isnum fmt y
      ∧ is0 fmt (h.host_fabs y) = is0 fmt y)
    (h1 : isnum fmt w1 = true) (h0 : isnum fmt w0 = true)
    (heq : toRat fmt w1 = toRat fmt w0) :
    is0 fmt (sample_errors fmt (bitsArith fmt h) w1 w0).abs_err = true
    ∧ is0 fmt (sample_errors fmt (bitsArith fmt h) w1 w0).rel_err = true := by
  have habs : is0 fmt (h.host_sub w1 w0) = true := hsub w1 w0 h1 h0 heq
  refine ⟨habs, ?_⟩
  by_cases hz : is0 fmt w0 = true
  · have hz1 : is0 fmt w1 = true := by
      rw [is0_eq, beq_iff_eq] at hz ⊢
      rw [← toRat_eq_zero_iff] at hz ⊢
      rw [heq]; exact hz
    have : (sample_errors fmt (bitsArith fmt h) w1 w0).rel_err = ff_of_int fmt 0 := by
      simp [sample_errors, bitsArith, hz, hz1]
    rw [this]; cases fmt <;> decide
  · have hz' : is0 fmt w0 = false := by simpa using hz
    have : (sample_errors fmt (bitsArith fmt h) w1 w0).rel_err
        = h.host_div (h.host_sub w1 w0) (h.host_fabs w0) := by
      simp [sample_errors, bitsArith, hz']
    rw [this]
    exact hdiv _ _ habs (by rw [(hfabs w0).1]; exact h0) (by rw [(hfabs w0).2]; exact hz')

theorem zero_key (fmt : Fmt) (z : Nat) (hz : is0 fmt z = true) :
    isnan fmt z = false ∧ ordKey fmt z = 0 := by
  have hs : u_from_f fmt z &&& unot fmt (M_SIGN fmt) = 0 := by
    simpa [is0] using hz
  have hs' : z &&& unot fmt (M_SIGN fmt) = 0 := hs
  constructor
  · simp only [isnan, hs, decide_eq_false_iff_not]; omega
  · unfold ordKey; rw [hs']; split <;> simp

theorem key_inf_pos (fmt : Fmt) :
    0 < ordKey fmt (P_INF fmt) ∧ ordKey fmt (ff_neg fmt (P_INF fmt)) < 0 := by
  cases fmt <;> decide

/-- Markers of a sample with zero errors after samples with zero errors: the four error
markers are written exactly when no sample precedes. -/
theorem markers_of_zero_errors (fmt : Fmt) (prev : List Sample) (s : Sample)
    (hp : ∀ t ∈ prev, is0 fmt t.abs_err = true ∧ is0 fmt t.rel_err = true)
    (hs : is0 fmt s.abs_err = true ∧ is0 fmt s.rel_err = true) :
    ∃ c5 : Bool, markers_after fmt prev s
      = marker_text (decide (prev = [])) (decide (prev = [])) (decide (prev = []))
          (decide (prev = [])) c5 := by
  obtain ⟨ha, hka⟩ := zero_key fmt _ hs.1
  obtain ⟨hr, hkr⟩ := zero_key fmt _ hs.2
  have hnan : ∀ t ∈ prev, isnan fmt t.abs_err = false ∧ isnan fmt t.rel_err = false :=
    fun t ht => ⟨(zero_key fmt _ (hp t ht).1).1, (zero_key fmt _ (hp t ht).2).1⟩
  have hg : isnan fmt (init_globals fmt 0).abs_mi = false
      ∧ isnan fmt (init_globals fmt 0).abs_ma = false
      ∧ isnan fmt (init_globals fmt 0).rel_mi = false
      ∧ isnan fmt (init_globals fmt 0).rel_ma = false :=
    ⟨isnan_P_INF fmt, isnan_neg_P_INF fmt, isnan_P_INF fmt, isnan_neg_P_INF fmt⟩
  have inv := track_keys fmt prev (init_globals fmt 0) hnan hg
  have e1 : (init_globals fmt 0).abs_mi = P_INF fmt := rfl
  have e2 : (init_globals fmt 0).abs_ma = ff_neg fmt (P_INF fmt) := rfl
  have e3 : (init_globals fmt 0).rel_mi = P_INF fmt := rfl
  have e4 : (init_globals fmt 0).rel_ma = ff_neg fmt (P_INF fmt) := rfl
  rw [e1, e2, e3, e4] at inv
  obtain ⟨kp, kn⟩ := key_inf_pos fmt
  refine ⟨decide (s.ticks > (track fmt (init_globals fmt 0) prev).cyc_ma), ?_⟩
  rw [markers_after, update_extrema_eq]
  simp only
  rw [ff_lt_of_not_nan fmt _ _ ha inv.1.1, ff_lt_of_not_nan fmt _ _ inv.1.2.1 ha,
    ff_lt_of_not_nan fmt _ _ hr inv.1.2.2.1, ff_lt_of_not_nan fmt _ _ inv.1.2.2.2 hr,
    inv.2.1, inv.2.2.1, inv.2.2.2.1, inv.2.2.2.2, hka, hkr]
  have hmin_a : (0 < (prev.map (fun t => ordKey fmt t.abs_err)).foldl min (ordKey fmt (P_INF fmt)))
      ↔ prev = [] := by
    rw [lt_foldl_min_iff]
    constructor
    · rintro ⟨_, h⟩
      cases prev with
      | nil => rfl
      | cons t ts =>
        have := h (ordKey fmt t.abs_err) (by simp)
        rw [(zero_key fmt _ (hp t (List.mem_cons_self _ _)).1).2] at this
        exact absurd this (lt_irrefl _)
    · intro h; subst h; exact ⟨kp, by simp⟩
  have hmax_a : ((prev.map (fun t => ordKey fmt t.abs_err)).foldl max
      (ordKey fmt (ff_neg fmt (P_INF fmt))) < 0) ↔ prev = [] := by
    rw [foldl_max_lt_iff]
    constructor
    · rintro ⟨_, h⟩
      cases prev with
      | nil => rfl
      | cons t ts =>
        have := h (ordKey fmt t.abs_err) (by simp)
        rw [(zero_key fmt _ (hp t (List.mem_cons_self _ _)).1).2] at this
        exact absurd this (lt_irrefl _)
    · intro h; subst h; exact ⟨kn, by simp⟩
  have hmin_r : (0 < (prev.map (fun t => ordKey fmt t.rel_err)).foldl min (ordKey fmt (P_INF fmt)))
      ↔ prev = [] := by
    rw [lt_foldl_min_iff]
    constructor
    · rintro ⟨_, h⟩
      cases prev with
      | nil => rfl
      | cons t ts =>
        have := h (ordKey fmt t.rel_err) (by simp)
        rw [(zero_key fmt _ (hp t (List.mem_cons_self _ _)).2).2] at this
        exact absurd this (lt_irrefl _)
    · intro h; subst h; exact ⟨kp, by simp⟩
  have hmax_r : ((prev.map (fun t => ordKey fmt t.rel_err)).foldl max
      (ordKey fmt (ff_neg fmt (P_INF fmt))) < 0) ↔ prev = [] := by
    rw [foldl_max_lt_iff]
    constructor
    · rintro ⟨_, h⟩
      cases prev with
      | nil => rfl
      | cons t ts =>
        have := h (ordKey fmt t.rel_err) (by simp)
        rw [(zero_key fmt _ (hp t (List.mem_cons_self _ _)).2).2] at this
        exact absurd this (lt_irrefl _)
    · intro h; subst h; exact ⟨kn, by simp⟩
  simp only [hmin_a, hmax_a, hmin_r, hmax_r]

theorem records_error_free (fmt : Fmt) (T : Harness) (count ix : Nat) (prev : List Sample)
    (hp : ∀ t ∈ prev, is0 fmt t.abs_err = true ∧ is0 fmt t.rel_err = true)
    (hz : ∀ i, ix ≤ i → i < ix + count → finite_at fmt T i = true
      ∧ is0 fmt (sample_at fmt T i).abs_err = true ∧ is0 fmt (sample_at fmt T i).rel_err = true)
    (hix : prev = [] ↔ ix = 0) :
    ∀ r ∈ records_from fmt T count ix prev, ∃ c5 : Bool,
      r.2 = record_body fmt T r.1
        ++ marker_text (decide (r.1 = 0)) (decide (r.1 = 0)) (decide (r.1 = 0))
            (decide (r.1 = 0)) c5 ++ ['\n'] := by
  induction count generalizing ix prev with
  | zero => intro r hr; simp [records_from] at hr
  | succ n ih =>
    intro r hr
    rw [records_from] at hr
    obtain ⟨hf, hs⟩ := hz ix (le_refl _) (by omega)
    have hnext : ∀ t ∈ prev ++ [sample_at fmt T ix],
        is0 fmt t.abs_err = true ∧ is0 fmt t.rel_err = true := by
      intro t ht
      rcases List.mem_append.mp ht with h | h
      · exact hp t h
      · rw [List.mem_singleton] at h; rw [h]; exact hs
    rw [if_pos hf] at hr
    rcases List.mem_cons.mp hr with h | h
    · obtain ⟨c5, hm⟩ := markers_of_zero_errors fmt prev (sample_at fmt T ix) hp hs
      refine ⟨c5, ?_⟩
      rw [h]
      simp only
      rw [hm]
      have : decide (prev = []) = decide (ix = 0) := by
        by_cases h0 : ix = 0
        · simp [h0, hix.mpr h0]
        · have : prev ≠ [] := fun hh => h0 (hix.mp hh)
          simp [h0, this]
      rw [this]
    · exact ih (ix + 1) _ hnext (fun i h1 h2 => hz i (by omega) (by omega)) (by simp) r h

/-- C19: first-sample markers in an error-free sweep.  For a host with the IEEE-754 laws
`x - x = 0`, `0 / y = 0` and a class-preserving `fabs`, in a sweep in which every
sample's target result is finite and equal to its finite reference result, there is one
record per sample, the first record carries all four markers `!a<`, `!a>`, `!r<`, `!r>`
and every later record carries none of them. -/
theorem error_free_sweep (fmt : Fmt) (T : Harness)
    (hsub : ∀ a b, isnum fmt a = true → isnum fmt b = true → toRat fmt a = toRat fmt b →
      is0 fmt (T.host.host_sub a b) = true)
    (hdiv : ∀ z y, is0 fmt z = true → isnum fmt y = true → is0 fmt y = false →
      is0 fmt (T.host.host_div z y) = true)
    (hfabs : ∀ y, isnum fmt (T.host.host_fabs y) = isnum fmt y
      ∧ is0 fmt (T.host.host_fabs y) = is0 fmt y)
    (hagree : ∀ ix, ix < T.XVALS % 65536 →
      isnum fmt (T.FUN (point_at fmt T ix)) = true
      ∧ isnum fmt (T.host_val (point_at fmt T ix)) = true
      ∧ toRat fmt (T.FUN (point_at fmt T ix)) = toRat fmt (T.host_val (point_at fmt T ix))) :
    (main fmt T).2 = ((records_from fmt T (T.XVALS % 65536) 0 []).map Prod.snd).flatten
    ∧ (records_from fmt T (T.XVALS % 65536) 0 []).map Prod.fst = List.range (T.XVALS % 65536)
    ∧ (∀ r ∈ records_from fmt T (T.XVALS % 65536) 0 [], ∃ c5 : Bool,
        r.2 = record_body fmt T r.1
          ++ marker_text (decide (r.1 = 0)) (decide (r.1 = 0)) (decide (r.1 = 0))
              (decide (r.1 = 0)) c5 ++ ['\n']
        ∧ (([' ', '!', 'a', '<'] <:+: marker_text (decide (r.1 = 0)) (decide (r.1 = 0))
              (decide (r.1 = 0)) (decide (r.1 = 0)) c5) ↔ r.1 = 0)
        ∧ (([' ', '!', 'a', '>'] <:+: marker_text (decide (r.1 = 0)) (decide (r.1 = 0))
              (decide (r.1 = 0)) (decide (r.1 = 0)) c5) ↔ r.1 = 0)
        ∧ (([' ', '!', 'r', '<'] <:+: marker_text (decide (r.1 = 0)) (decide (r.1 = 0))
              (decide (r.1 = 0)) (decide (r.1 = 0)) c5) ↔ r.1 = 0)
        ∧ (([' ', '!', 'r', '>'] <:+: marker_text (decide (r.1 = 0)) (decide (r.1 = 0))
              (decide (r.1 = 0)) (decide (r.1 = 0)) c5) ↔ r.1 = 0)) := by
  have hz : ∀ i, 0 ≤ i → i < 0 + T.XVALS % 65536 → finite_at fmt T i = true
      ∧ is0 fmt (sample_at fmt T i).abs_err = true
      ∧ is0 fmt (sample_at fmt T i).rel_err = true := by
    intro i _ hi
    obtain ⟨h1, h0, heq⟩ := hagree i (by omega)
    exact ⟨h1, agreement_zero_errors fmt T.host _ _ hsub hdiv hfabs h1 h0 heq⟩
  refine ⟨sweep_from_records fmt T _ 0 _ [] rfl, ?_, ?_⟩
  · rw [records_from_indices, ← List.range_eq_range']
    apply List.filter_eq_self.mpr
    intro i hi
    rw [List.mem_range] at hi
    exact (hz i (Nat.zero_le _) (by omega)).1
  · intro r hr
    obtain ⟨c5, h⟩ := records_error_free fmt T _ 0 [] (by simp) hz (by simp) r hr
    have hc := marker_text_carries (decide (r.1 = 0)) (decide (r.1 = 0)) (decide (r.1 = 0))
      (decide (r.1 = 0)) c5
    simp only [decide_eq_true_eq] at hc
    exact ⟨c5, h, hc.1, hc.2.1, hc.2.2.1, hc.2.2.2.1⟩

set_option maxRecDepth 100000 in
set_option exponentiation.threshold 4096 in
theorem demo_identity_agrees :
    ∀ ix, ix < (demoHarness .f32 (fun x => x) (fun x => x) 3 0 0x3f800000).XVALS % 65536 →
      isnum .f32 ((demoHarness .f32 (fun x => x) (fun x => x) 3 0 0x3f800000).FUN
        (point_at .f32 (demoHarness .f32 (fun x => x) (fun x => x) 3 0 0x3f800000) ix)) = true
      ∧ isnum .f32 ((demoHarness .f32 (fun x => x) (fun x => x) 3 0 0x3f800000).host_val
        (point_at .f32 (demoHarness .f32 (fun x => x) (fun x => x) 3 0 0x3f800000) ix)) = true
      ∧ toRat .f32 ((demoHarness .f32 (fun x => x) (fun x => x) 3 0 0x3f800000).FUN
          (point_at .f32 (demoHarness .f32 (fun x => x) (fun x => x) 3 0 0x3f800000) ix))
        = toRat .f32 ((demoHarness .f32 (fun x => x) (fun x => x) 3 0 0x3f800000).host_val
          (point_at .f32 (demoHarness .f32 (fun x => x) (fun x => x) 3 0 0x3f800000) ix)) := by
  intro ix hix
  have h3 : ix < 3 := hix
  refine ⟨?_, ?_, rfl⟩
  · interval_cases ix <;> decide
  · interval_cases ix <;> decide

theorem error_free_sweep_witness :
    (∀ a b, isnum .f32 a = true → isnum .f32 b = true → toRat .f32 a = toRat .f32 b →
        is0 .f32 ((demoHarness .f32 (fun x => x) (fun x => x) 3 0 0x3f800000).host.host_sub a b)
          = true)
    ∧ (records_from .f32 (demoHarness .f32 (fun x => x) (fun x => x) 3 0 0x3f800000)
        ((demoHarness .f32 (fun x => x) (fun x => x) 3 0 0x3f800000).XVALS % 65536) 0 []).map
          Prod.fst
        = List.range ((demoHarness .f32 (fun x => x) (fun x => x) 3 0 0x3f800000).XVALS % 65536) :=
  ⟨ieee_sub_self .f32,
    (error_free_sweep .f32 (demoHarness .f32 (fun x => x) (fun x => x) 3 0 0x3f800000)
      (ieee_sub_self .f32) (ieee_div_zero .f32) (ieee_fabs_class .f32)
      demo_identity_agrees).2.1⟩

end MathPrec
